import Mathlib

/-!
Verification of the in-memory columnar storage engine
(`src/common/types/column_data_collection.cpp` and
`src/common/types/validity_mask.cpp`) against its specification.

The C++ sources are shallowly embedded:
* machine words (`validity_t`, a 64-bit unsigned integer) become `Nat`
  with explicit `% 2 ^ 64` wherever C++ arithmetic wraps;
* heap-allocated bit arrays become `List Nat` (one `Nat` per 64-bit entry);
* raw pointers to shared bit arrays become indices into an explicit
  `MaskStore`, so pointer-equality fast paths can be stated;
* `unique_ptr`-owned segments become `Option`-valued list entries
  (`none` models a moved-from pointer);
* `D_ASSERT` failures and `throw InternalException` both surface as
  `Except.error` values.

Constants and functions that live in headers or in
`column_data_collection_segment.cpp` (not part of the given sources) are
modelled from the specification; each such definition carries a doc
comment starting with `Modelled from the spec:`.
-/

namespace DuckDB

/-- `BITS_PER_VALUE`: number of bits in one `validity_t` entry (64-bit word). -/
def BITS_PER_VALUE : Nat := 64

/-- `ValidityData::MAX_ENTRY`: a 64-bit word with all bits set. -/
def maxEntry : Nat := 2 ^ 64 - 1

/-- `ValidityData::EntryCount(count)`: number of 64-bit entries needed for `count` bits. -/
def entryCount (count : Nat) : Nat := (count + 63) / 64

/-- Modelled from the spec: `STANDARD_VECTOR_SIZE`, the fixed maximum batch size
("the same constant used by the row-batch abstraction, e.g. 2048"); the constant
itself is defined in a header outside the given sources. -/
def STANDARD_VECTOR_SIZE : Nat := 2048

/-- `STANDARD_ENTRY_COUNT`: entries needed for a standard vector's validity bits. -/
def STANDARD_ENTRY_COUNT : Nat := entryCount STANDARD_VECTOR_SIZE

/-- Read bit `i` of a bit array stored as 64-bit entries
(`validity_mask[i / BITS_PER_VALUE] & (1 << (i % BITS_PER_VALUE))`).
Out-of-range entries read as `0` (the C++ reads unowned memory there). -/
def wordsBit (ws : List Nat) (i : Nat) : Bool :=
  Nat.testBit (ws.getD (i / 64) 0) (i % 64)

/-- Clear bit `i` of a bit array: `entry &= ~(1 << bit)` on the containing entry. -/
def clearBitWords (ws : List Nat) (i : Nat) : List Nat :=
  ws.set (i / 64) ((ws.getD (i / 64) 0) &&& (maxEntry ^^^ (1 <<< (i % 64))))

/-- A fresh all-ones bit array of `n` entries, as produced by `ValidityData`'s
count constructor (every entry set to `MAX_ENTRY`). -/
def allOnesWords (n : Nat) : List Nat := List.replicate n maxEntry

/-- A `ValidityMask` viewed by contents: `none` is the all-valid sentinel
(null `validity_mask` pointer), `some ws` a materialized bit array. -/
abbrev VMask : Type := Option (List Nat)

/-- `ValidityMask::AllValid()`: true iff no bit array is materialized. -/
def vmaskAllValid (m : VMask) : Bool :=
  match m with
  | none => true
  | some _ => false

/-- `ValidityMask::RowIsValid(row)`: all-valid sentinel reads true, otherwise
read the stored bit. -/
def vmaskRowIsValid (m : VMask) (i : Nat) : Bool :=
  match m with
  | none => true
  | some ws => wordsBit ws i

/-- `ValidityMask::SetInvalid(row)`: materializes an all-ones array of standard
size on first mutation, then clears the row's bit. Modelled from the spec for
the header-defined materialization ("materializes a bit array on first
mutation, initialized to all-ones up to capacity"). -/
def vmaskSetInvalid (m : VMask) (i : Nat) : VMask :=
  match m with
  | none => some (clearBitWords (allOnesWords STANDARD_ENTRY_COUNT) i)
  | some ws => some (clearBitWords ws i)

/-- `ValidityMask::Resize(old_size, new_size)` applied to a materialized array:
copy the first `EntryCount(old_size)` entries, fill entries up to
`EntryCount(new_size)` with `MAX_ENTRY` (source lines 66-80). -/
def resizeWords (ws : List Nat) (old_size new_size : Nat) : List Nat :=
  (List.range (entryCount new_size)).map fun j =>
    if j < entryCount old_size then ws.getD j 0 else maxEntry

/-- `ValidityMask::Resize`: no-op when no bit array is materialized
(`if (validity_mask)` guard), otherwise grow the owned array. -/
def vmaskResize (m : VMask) (old_size new_size : Nat) : VMask :=
  match m with
  | none => none
  | some ws => some (resizeWords ws old_size new_size)

/-- `ValidityMask::Slice(other, offset)` (source lines 82-120), by contents.
The source's `sub_units` computation is kept verbatim, including C++ operator
precedence: `offset - entire_units % BITS_PER_VALUE` parses as
`offset - (entire_units % BITS_PER_VALUE)`. Shifts of 64-bit words wrap
modulo `2 ^ 64`. -/
def vmaskSlice (other : VMask) (offset : Nat) : VMask :=
  match other with
  | none => none
  | some ows =>
    if offset = 0 then
      -- Initialize(other): reference-sharing copy
      some ows
    else
      -- Initialize(STANDARD_VECTOR_SIZE): fresh all-ones array
      let entire_units := offset / BITS_PER_VALUE
      let sub_units := offset - entire_units % BITS_PER_VALUE
      let afterWhole : List Nat :=
        if 0 < entire_units then
          (List.range STANDARD_ENTRY_COUNT).map fun j =>
            if j + entire_units < STANDARD_ENTRY_COUNT then ows.getD (j + entire_units) 0
            else maxEntry
        else allOnesWords STANDARD_ENTRY_COUNT
      if 0 < sub_units then
        some ((List.range STANDARD_ENTRY_COUNT).map fun j =>
          if j + 1 < STANDARD_ENTRY_COUNT then
            ((ows.getD j 0) >>> sub_units) |||
              (((ows.getD (j + 1) 0) <<< (BITS_PER_VALUE - sub_units)) % 2 ^ 64)
          else (afterWhole.getD j 0) >>> sub_units)
      else some afterWhole

/-- The pool of heap-allocated validity bit arrays; a `validity_mask` pointer
is modelled as an index into this store, so that the source's
pointer-equality fast path (`validity_mask == other.validity_mask`) and
by-reference adoption (`Initialize(other)`) can be expressed. -/
structure MaskStore where
  arrays : List (List Nat)
deriving DecidableEq

/-- A `ValidityMask` viewed by reference: the `validity_mask` pointer is
either null (all-valid sentinel) or an index into the `MaskStore`. -/
structure RefValidityMask where
  refIdx : Option Nat
deriving DecidableEq

/-- Dereference a mask's bit-array pointer in the store. -/
def RefValidityMask.getData (st : MaskStore) (m : RefValidityMask) : List Nat :=
  match m.refIdx with
  | none => []
  | some i => st.arrays.getD i []

/-- `RowIsValid` for the reference-level view. -/
def refRowIsValid (st : MaskStore) (m : RefValidityMask) (i : Nat) : Bool :=
  match m.refIdx with
  | none => true
  | some _ => wordsBit (m.getData st) i

/-- `ValidityMask::Combine(other, count)` (source lines 21-48): three fast
paths, then an element-wise AND into a freshly allocated array. The fresh
array is appended to the store ("create a new validity mask that contains the
combined mask"); the source first fills it with ones via `Initialize(count)`
and then overwrites every one of its `EntryCount(count)` entries with the AND,
so the net contents are the per-entry conjunction. -/
def refCombine (st : MaskStore) (m other : RefValidityMask) (count : Nat) :
    RefValidityMask × MaskStore :=
  if other.refIdx = none then
    -- X & 1 = X
    (m, st)
  else if m.refIdx = none then
    -- 1 & Y = Y : Initialize(other), adopting the array by reference
    ({ refIdx := other.refIdx }, st)
  else if m.refIdx = other.refIdx then
    -- X & X == X
    (m, st)
  else
    let data := m.getData st
    let other_data := other.getData st
    let merged := (List.range (entryCount count)).map fun j =>
      (data.getD j 0) &&& (other_data.getD j 0)
    ({ refIdx := some st.arrays.length }, { arrays := st.arrays ++ [merged] })

/-- Faults surfaced by the engine: `InternalException` throws and `D_ASSERT`
failures (assertions are the source's fault mechanism for
programming-contract violations; the spec treats these as faults). -/
inductive DuckDBError where
  | internalException (msg : String)
  | assertionFailure
deriving DecidableEq

instance {ε β : Type} [DecidableEq ε] [DecidableEq β] : DecidableEq (Except ε β) := fun a b =>
  match a, b with
  | .ok a, .ok b =>
    if h : a = b then isTrue (by rw [h]) else isFalse fun he => h (Except.ok.inj he)
  | .error a, .error b =>
    if h : a = b then isTrue (by rw [h]) else isFalse fun he => h (Except.error.inj he)
  | .ok _, .error _ => isFalse fun he => Except.noConfusion he
  | .error _, .ok _ => isFalse fun he => Except.noConfusion he

/-- A flattened source column, as produced by the external vector layer
(`Orrify`, spec section 6 "flattening contract"): a dense value array, a
validity mask, and a selection mapping. The value array is a total function
(a raw pointer in C++); only entries reached through `sel` matter. -/
structure VectorData (α : Type) where
  sel : Nat → Nat
  data : Nat → α
  validity : VMask

instance [Inhabited α] : Inhabited (VectorData α) :=
  ⟨⟨id, fun _ => default, none⟩⟩

/-- The logical cell a flattened column holds at row `r`: `none` when the
selected entry is invalid, otherwise the selected dense value. -/
def VectorData.cell (v : VectorData α) (r : Nat) : Option α :=
  if vmaskRowIsValid v.validity (v.sel r) then some (v.data (v.sel r)) else none

/-- `VectorMetaData`, specialized to one stored column-vector instance of a
fixed-width type: the running count of rows written, the slot's value region,
and the slot's validity-bit region. The physical `block_id`/`offset` pair of
the source is abstracted into per-slot storage (the allocator contract
guarantees distinct slots occupy distinct block regions). Value positions the
copy loop skipped (invalid source rows) stay uninitialized, modelled as
`none`; the validity region's uninitialized garbage is modelled as zero
words. -/
structure VectorMetaData (α : Type) where
  count : Nat
  data : List (Option α)
  validity : List Nat
deriving DecidableEq

instance : Inhabited (VectorMetaData α) := ⟨⟨0, [], []⟩⟩

/-- Modelled from the spec: `allocate_vector` creates a fresh slot "sized for
the type's physical row layout (fixed-width slot of capacity rows, plus room
for a validity bitmap of capacity bits)"; allocation itself lives in
`column_data_collection_segment.cpp`, which is not among the given sources. -/
def emptyVectorMeta (CAP : Nat) : VectorMetaData α :=
  ⟨0, [], List.replicate (entryCount CAP) 0⟩

/-- Read one stored cell of a slot: validity bit gates the value region. -/
def VectorMetaData.cellAt (m : VectorMetaData α) (r : Nat) : Option α :=
  if wordsBit m.validity r then m.data.getD r none else none

/-- `ColumnDataCopyValidity` (source lines 101-119): on the first append to a
vector (`target_offset == 0`) the still-uninitialized validity region is set
to all-valid; then, unless the source mask is all-valid, every invalid source
row clears the corresponding target bit. -/
def columnDataCopyValidity (CAP : Nat) (source : VectorData α) (target : List Nat)
    (source_offset target_offset copy_count : Nat) : List Nat :=
  let t := if target_offset = 0 then allOnesWords (entryCount CAP) else target
  if vmaskAllValid source.validity then t
  else
    (List.range copy_count).foldl
      (fun acc i =>
        let idx := source.sel (source_offset + i)
        if vmaskRowIsValid source.validity idx then acc
        else clearBitWords acc (target_offset + i))
      t

/-- `TemplatedColumnDataCopy` (source lines 143-162): copy the validity bits,
then write `OP::Operation` of each valid source value at the slot's running
count, and advance the count by `copy_count`. Invalid rows are skipped (their
slots stay uninitialized). `op` stands for `OP::Operation` with the
`ColumnDataMetaData` argument already applied (identity for
`StandardValueCopy`, offset shifting for `ListValueCopy`). -/
def templatedColumnDataCopy (CAP : Nat) (op : α → α) (slot : VectorMetaData α)
    (source : VectorData α) (source_offset copy_count : Nat) : VectorMetaData α :=
  let validity' :=
    columnDataCopyValidity CAP source slot.validity source_offset slot.count copy_count
  let newCells := (List.range copy_count).map fun i =>
    let source_idx := source.sel (source_offset + i)
    if vmaskRowIsValid source.validity source_idx then some (op (source.data source_idx))
    else none
  { count := slot.count + copy_count, data := slot.data ++ newCells, validity := validity' }

/-- `ChunkMetaData`: one row-group; per schema column one root slot. -/
structure ChunkMetaData (α : Type) where
  count : Nat
  vector_data : List (VectorMetaData α)
deriving DecidableEq

instance : Inhabited (ChunkMetaData α) := ⟨⟨0, []⟩⟩

/-- `ColumnDataCollectionSegment`: an ordered list of chunks plus the
segment's row count. The heap (string blobs) is not needed for the fixed-width
scalar model. -/
structure ColumnDataCollectionSegment (α : Type) where
  chunk_data : List (ChunkMetaData α)
  count : Nat
deriving DecidableEq

instance : Inhabited (ColumnDataCollectionSegment α) := ⟨⟨[], 0⟩⟩

/-- `ColumnDataCollection` for a schema of fixed-width scalar columns: the
schema (column types abstracted to tags, compared only for equality), total
row count, owned segments (`unique_ptr`s modelled as `Option`, `none` being a
moved-from pointer), and the append-closed flag. -/
structure ColumnDataCollection (α : Type) where
  types : List Nat
  count : Nat
  segments : List (Option (ColumnDataCollectionSegment α))
  finished_append : Bool
deriving DecidableEq

/-- Modelled from the spec: `allocate_new_chunk` "appends an empty Chunk
(count = 0) and, for every top-level schema column, allocates a fresh
Vector-Metadata slot for it" (the implementation lives in the segment source
file, which is not among the given sources). -/
def allocateNewChunk (CAP ncols : Nat) (seg : ColumnDataCollectionSegment α) :
    ColumnDataCollectionSegment α :=
  { seg with
    chunk_data := seg.chunk_data ++ [⟨0, List.replicate ncols (emptyVectorMeta CAP)⟩] }

/-- Replace the last element of a list in place (mutation of `back()`). -/
def updateLast (f : β → β) : List β → List β
  | [] => []
  | [x] => [f x]
  | x :: y :: xs => x :: updateLast f (y :: xs)

/-- One pass of the inner append loop body over all columns of the current
chunk (source lines 354-361): each column's copy function runs against the
chunk's root slot with the same `offset`/`append_amount`, then the chunk
count advances. -/
def writeChunkColumns (CAP ncols : Nat) [Inhabited α] (cols : List (VectorData α))
    (offset append_amount : Nat) (chunk : ChunkMetaData α) : ChunkMetaData α :=
  { count := chunk.count + append_amount,
    vector_data := (List.range ncols).map fun vi =>
      templatedColumnDataCopy CAP id (chunk.vector_data.getD vi default)
        (cols.getD vi default) offset append_amount }

/-- The segment after the inner loop body wrote `amount` rows starting at
source offset `offset` into its last chunk. -/
def segWrite (CAP ncols : Nat) [Inhabited α] (cols : List (VectorData α))
    (offset amount : Nat) (seg : ColumnDataCollectionSegment α) :
    ColumnDataCollectionSegment α :=
  { seg with chunk_data :=
      updateLast (writeChunkColumns CAP ncols cols offset amount) seg.chunk_data }

/-- One iteration of the append loop (source lines 350-370): take
`min(remaining, CAP - current_chunk.count)` rows, copy them if any, and
allocate a fresh chunk when rows remain. Returns the segment and the new
`remaining`. -/
def appendStep (CAP ncols : Nat) [Inhabited α] (cols : List (VectorData α))
    (inputSize : Nat) (seg : ColumnDataCollectionSegment α) (remaining : Nat) :
    ColumnDataCollectionSegment α × Nat :=
  let chunk := seg.chunk_data.getLastD default
  let append_amount := min remaining (CAP - chunk.count)
  let seg1 :=
    if 0 < append_amount then
      segWrite CAP ncols cols (inputSize - remaining) append_amount seg
    else seg
  let remaining1 := remaining - append_amount
  let seg2 := if 0 < remaining1 then allocateNewChunk CAP ncols seg1 else seg1
  (seg2, remaining1)

/-- The append loop (`while (remaining > 0)`), structured by an explicit
iteration budget so the recursion is structural. A single iteration fails to
make progress exactly when the current chunk is already full; the fresh chunk
allocated at the end of that iteration makes the following iteration
progress, so two chained steps always shrink `remaining` when `0 < CAP` (for
`CAP = 0` the C++ loop would not terminate; the model then stops). Every
chained step shrinks `remaining` by at least one, so a budget of `remaining`
(supplied by `appendLoop`) never runs out before the loop condition fails. -/
def appendLoopAux (CAP ncols : Nat) [Inhabited α] (cols : List (VectorData α))
    (inputSize : Nat) :
    Nat → ColumnDataCollectionSegment α → Nat → ColumnDataCollectionSegment α
  | 0, seg, _ => seg
  | fuel + 1, seg, remaining =>
    if remaining = 0 then seg
    else
      let s1 := appendStep CAP ncols cols inputSize seg remaining
      if s1.2 < remaining then appendLoopAux CAP ncols cols inputSize fuel s1.1 s1.2
      else
        let s2 := appendStep CAP ncols cols inputSize s1.1 remaining
        if s2.2 < remaining then appendLoopAux CAP ncols cols inputSize fuel s2.1 s2.2
        else s2.1

/-- The append loop with its sufficient budget. -/
def appendLoop (CAP ncols : Nat) [Inhabited α] (cols : List (VectorData α))
    (inputSize : Nat) (seg : ColumnDataCollectionSegment α) (remaining : Nat) :
    ColumnDataCollectionSegment α :=
  appendLoopAux CAP ncols cols inputSize remaining seg remaining

/-- `DataChunk`, already flattened per column by the external vector layer:
the batch's schema, its row count, and per column the flattened view
(`state.vector_data` after `Orrify`). -/
structure DataChunk (α : Type) where
  types : List Nat
  size : Nat
  cols : List (VectorData α)

/-- The logical row `r` of an input batch. -/
def DataChunk.row [Inhabited α] (b : DataChunk α) (r : Nat) : List (Option α) :=
  (List.range b.types.length).map fun c => (b.cols.getD c default).cell r

/-- All logical rows of an input batch. -/
def DataChunk.rows [Inhabited α] (b : DataChunk α) : List (List (Option α)) :=
  (List.range b.size).map b.row

/-- `ColumnDataCollection::Append` (source lines 88-99 and 337-379):
`InitializeAppend` asserts the collection is not append-closed, creates the
first segment and chunk on demand; `Append` asserts the schema matches, then
runs the chunk-splitting loop and advances the segment and collection
counts. -/
def ColumnDataCollection.append (CAP : Nat) [Inhabited α] (c : ColumnDataCollection α)
    (input : DataChunk α) : Except DuckDBError (ColumnDataCollection α) :=
  if c.finished_append then .error .assertionFailure
  else if c.types ≠ input.types then .error .assertionFailure
  else
    let segments := if c.segments.isEmpty then [some default] else c.segments
    let seg := (segments.getLastD none).getD default
    let seg := if seg.chunk_data.isEmpty then allocateNewChunk CAP c.types.length seg else seg
    let seg := appendLoop CAP c.types.length input.cols input.size seg input.size
    let seg := { seg with count := seg.count + input.size }
    .ok { c with
          count := c.count + input.size
          segments := updateLast (fun _ => some seg) segments }

/-- Append a sequence of batches, threading the fault monad. -/
def appendAll (CAP : Nat) [Inhabited α] (c : ColumnDataCollection α) :
    List (DataChunk α) → Except DuckDBError (ColumnDataCollection α)
  | [] => .ok c
  | b :: bs =>
    match c.append CAP b with
    | .error e => .error e
    | .ok c' => appendAll CAP c' bs

/-- A fresh, empty collection over the given schema
(constructor plus `Initialize`, source lines 43-79). -/
def emptyCollection (types : List Nat) : ColumnDataCollection α :=
  ⟨types, 0, [], false⟩

/-- `ColumnDataScanState`: the scan cursor
`(chunk_index, segment_index, current_row_index, next_row_index)`. -/
structure ColumnDataScanState where
  chunk_index : Nat
  segment_index : Nat
  current_row_index : Nat
  next_row_index : Nat
deriving DecidableEq

/-- `InitializeScan`: all cursor fields zeroed (source lines 384-390). -/
def initScanState : ColumnDataScanState := ⟨0, 0, 0, 0⟩

/-- The chunk list of segment `si` (dereferencing the owned pointer; a
moved-from segment dereferences to the empty default). -/
def segChunks (c : ColumnDataCollection α) (si : Nat) : List (ChunkMetaData α) :=
  ((c.segments.getD si none).getD default).chunk_data

/-- The `while` loop of `NextScanIndex` (source lines 429-437): while the
chunk index has exhausted the current segment, restart at chunk 0 of the next
segment, failing once the segments run out. -/
def nsiSkipAux (c : ColumnDataCollection α) : Nat → Nat → Nat → Option (Nat × Nat)
  | 0, _, _ => none
  | fuel + 1, ci, si =>
    if (segChunks c si).length ≤ ci then
      if c.segments.length ≤ si + 1 then none
      else nsiSkipAux c fuel 0 (si + 1)
    else some (ci, si)

/-- The skip loop with its sufficient budget (the loop advances the segment
index each iteration, so it runs at most `segments.length` times before the
in-loop exhaustion check fires). -/
def nsiSkip (c : ColumnDataCollection α) (ci si : Nat) : Option (Nat × Nat) :=
  nsiSkipAux c (c.segments.length + 1) ci si

/-- `ColumnDataCollection::NextScanIndex` (source lines 420-442): hand out the
next `(chunk_index, segment_index, row_index)` triple and advance the cursor
past it. Returns `none` when the scan is exhausted (the source's `false`
return; its incidental cursor mutations on that path are unobservable since
scanning stops). -/
def nextScanIndex (c : ColumnDataCollection α) (s : ColumnDataScanState) :
    Option ((Nat × Nat × Nat) × ColumnDataScanState) :=
  let row_index := s.next_row_index
  if c.segments.length ≤ s.segment_index then none
  else
    match nsiSkip c s.chunk_index s.segment_index with
    | none => none
    | some (ci, si) =>
      let cnt := ((segChunks c si).getD ci default).count
      some ((ci, si, row_index),
        { chunk_index := ci + 1, segment_index := si,
          current_row_index := row_index, next_row_index := row_index + cnt })

/-- Modelled from the spec: `read_chunk` is the "inverse of append —
materializes all columns of the given chunk into a caller-supplied row
batch" (`ColumnDataCollectionSegment::ReadChunk` lives in the segment source
file, which is not among the given sources). Each materialized row reads, per
column, the slot's validity bit and stored value. -/
def readChunkRows (ncols : Nat) (chunk : ChunkMetaData α) : List (List (Option α)) :=
  (List.range chunk.count).map fun r =>
    (List.range ncols).map fun col => (chunk.vector_data.getD col default).cellAt r

/-- `ColumnDataCollection::Scan(state, result)` (source lines 444-459): fetch
the next scan index and materialize that chunk. The parallel variant
(source lines 396-414) performs the same computation, with the shared-cursor
`NextScanIndex` call under the lock and the chunk decode outside it; one call
of this function models one worker call, the `nextScanIndex` part being the
atomic (locked) portion. -/
def ColumnDataCollection.scan (c : ColumnDataCollection α) (s : ColumnDataScanState) :
    Option (List (List (Option α)) × ColumnDataScanState) :=
  match nextScanIndex c s with
  | none => none
  | some ((ci, si, _), s') =>
    some (readChunkRows c.types.length ((segChunks c si).getD ci default), s')

/-- Repeated sequential scanning, fuelled (the fuel bounds loop iterations;
`totalChunks + 1` always suffices). -/
def scanLoop (c : ColumnDataCollection α) :
    ColumnDataScanState → Nat → List (List (List (Option α)))
  | _, 0 => []
  | s, fuel + 1 =>
    match c.scan s with
    | none => []
    | some (rows, s') => rows :: scanLoop c s' fuel

/-- Total number of chunks over all segments. -/
def totalChunks (c : ColumnDataCollection α) : Nat :=
  ((List.range c.segments.length).map fun si => (segChunks c si).length).sum

/-- All rows a full sequential scan materializes, in scan order. -/
def scanAllRows (c : ColumnDataCollection α) : List (List (Option α)) :=
  (scanLoop c initScanState (totalChunks c + 1)).flatten

/-- `ColumnDataCollection::Combine(other)` (source lines 475-485): identical
schemas required (fault otherwise); `other`'s segment pointers are moved onto
this collection's segment list and the row counts are summed. Moving a
`unique_ptr` leaves a null pointer behind: `other` keeps a segment list of
the same length whose entries are all moved-from, and `other.count` is not
changed. Returns the updated `(this, other)` pair. -/
def ColumnDataCollection.combine (c other : ColumnDataCollection α) :
    Except DuckDBError (ColumnDataCollection α × ColumnDataCollection α) :=
  if c.types ≠ other.types then
    .error (.internalException "Attempting to combine ColumnDataCollections with mismatching types")
  else
    .ok
      ({ c with count := c.count + other.count, segments := c.segments ++ other.segments },
       { other with segments := other.segments.map fun _ => none })

/-- The transfer-style constructor
`ColumnDataCollection::ColumnDataCollection(ColumnDataCollection &other)`
(source lines 63-66): builds a fresh empty collection over `other`'s schema
and allocator and marks `other` append-closed. Returns the (new, source)
pair. -/
def ColumnDataCollection.copyConstruct (other : ColumnDataCollection α) :
    ColumnDataCollection α × ColumnDataCollection α :=
  (emptyCollection other.types, { other with finished_append := true })

/-- `ColumnDataCollection::ChunkCount` (source lines 507-509): always throws. -/
def ColumnDataCollection.chunkCount (_ : ColumnDataCollection α) : Except DuckDBError Nat :=
  .error (.internalException "FIXME: chunk count")

/-- A multi-worker parallel scan run: the schedule lists which worker makes
each successive `Scan(ColumnDataParallelScanState, ...)` call. The shared
cursor advances atomically (the source guards exactly the `NextScanIndex`
call with the lock, never the decode), so a run is a sequence of atomic
hand-outs; each successful call yields the decoded chunk to the calling
worker, tagged here with the worker's id in call order. -/
def runParallel (c : ColumnDataCollection α) (n : Nat) :
    List (Fin n) → ColumnDataScanState → List (Fin n × List (List (Option α)))
  | [], _ => []
  | w :: ws, s =>
    match c.scan s with
    | none => runParallel c n ws s
    | some (rows, s') => (w, rows) :: runParallel c n ws s'

/-- The chunk batches worker `w` received, in the order it received them. -/
def workerBatches (run : List (Fin n × List (List (Option α)))) (w : Fin n) :
    List (List (List (Option α))) :=
  (run.filter fun p => p.1 = w).map fun p => p.2

/-- The root slot of a list column in one chunk together with its child
chain. The source chains child `VectorMetaData` slots through the segment's
pool via `child_index`/`next_data` indices; the chain is represented directly
as the list of slots in link order (the pool bookkeeping lives in the segment
source file, which is not among the given sources, and is modelled from the
spec's description of list overflow chaining). A `list_entry_t` is an
`(offset, length)` pair. -/
structure ListVectorMeta (α : Type) where
  meta : VectorMetaData (Nat × Nat)
  chain : List (VectorMetaData α)
deriving DecidableEq

/-- The child-append walk of `ColumnDataCopy<list_entry_t>` (source lines
195-215): visit the chain from its root, accumulating into
`current_list_size` each visited slot's count before appending into it,
copying `min(CAP - count, remaining)` child values per slot, and allocating
a fresh linked slot whenever values remain past the chain's end. Returns the
updated chain and the final `current_list_size`. (For `CAP = 0` the C++ loop
would not terminate; the model then stops.) -/
def listChildLoopAux (CAP : Nat) [Inhabited α] (child : VectorData α) (childTotal : Nat) :
    Nat → List (VectorMetaData α) → Nat → Nat → List (VectorMetaData α) × Nat
  | 0, chain, _, cls => (chain, cls)
  | fuel + 1, chain, remaining, cls =>
    if remaining = 0 then (chain, cls)
    else
      match chain with
      | slot :: rest =>
        let cls1 := cls + slot.count
        let amount := min (CAP - slot.count) remaining
        let slot1 :=
          if 0 < amount then
            templatedColumnDataCopy CAP id slot child (childTotal - remaining) amount
          else slot
        let next := listChildLoopAux CAP child childTotal fuel rest (remaining - amount) cls1
        (slot1 :: next.1, next.2)
      | [] =>
        let slot : VectorMetaData α := emptyVectorMeta CAP
        let amount := min (CAP - 0) remaining
        if 0 < amount then
          let slot1 := templatedColumnDataCopy CAP id slot child (childTotal - remaining) amount
          let next := listChildLoopAux CAP child childTotal fuel [] (remaining - amount) (cls + 0)
          (slot1 :: next.1, next.2)
        else ([slot], cls)

/-- The walk with its sufficient budget: each iteration either consumes at
least one remaining child value or moves past one existing chain slot, so
`remaining + chain.length` iterations always reach the loop exit. -/
def listChildLoop (CAP : Nat) [Inhabited α] (child : VectorData α) (childTotal : Nat)
    (chain : List (VectorMetaData α)) (remaining cls : Nat) :
    List (VectorMetaData α) × Nat :=
  listChildLoopAux CAP child childTotal (remaining + chain.length) chain remaining cls

/-- `ColumnDataCopy<list_entry_t>` (source lines 176-219): ensure a child
chain root exists, append the batch's entire child array (`child_list_size =
ListVector::GetListSize(source)`) into the chain, then copy the `copy_count`
list entries through `ListValueCopy`, which adds the walk's
`current_list_size` to each entry's start offset. -/
def columnDataCopyList (CAP : Nat) [Inhabited α] (root : ListVectorMeta α)
    (source : VectorData (Nat × Nat)) (child : VectorData α) (childTotal : Nat)
    (source_offset copy_count : Nat) : ListVectorMeta α :=
  let chain0 := if root.chain.isEmpty then [(emptyVectorMeta CAP : VectorMetaData α)] else root.chain
  let walk := listChildLoop CAP child childTotal chain0 childTotal 0
  let meta' :=
    templatedColumnDataCopy CAP (fun e => (e.1 + walk.2, e.2)) root.meta source
      source_offset copy_count
  { meta := meta', chain := walk.1 }

/-- One chunk of a collection whose single column is a list column. -/
structure ListChunkMetaData (α : Type) where
  count : Nat
  root : ListVectorMeta α
deriving DecidableEq

instance : Inhabited (ListChunkMetaData α) := ⟨⟨0, ⟨⟨0, [], []⟩, []⟩⟩⟩

/-- A segment of the list-column collection. -/
structure ListSegment (α : Type) where
  chunk_data : List (ListChunkMetaData α)
  count : Nat
deriving DecidableEq

instance : Inhabited (ListSegment α) := ⟨⟨[], 0⟩⟩

/-- The collection engine specialized to the schema `[list<α>]` (one list
column); the shared fault paths (schema check, append-closed flag) are
exercised in the scalar model and omitted here. -/
structure ListCollection (α : Type) where
  count : Nat
  segments : List (ListSegment α)
deriving DecidableEq

/-- An input batch for the list column: the flattened `list_entry_t` column,
the child count `ListVector::GetListSize(source)`, and the flattened child
vector (`child_vector.Orrify`). -/
structure ListDataChunk (α : Type) where
  size : Nat
  entries : VectorData (Nat × Nat)
  childTotal : Nat
  child : VectorData α

/-- Modelled from the spec: `allocate_new_chunk` for the list schema — a
fresh chunk whose list column gets a fresh root slot with no child chain yet
(`child_index` invalid). -/
def allocateNewListChunk (CAP : Nat) (seg : ListSegment α) : ListSegment α :=
  { seg with chunk_data := seg.chunk_data ++ [⟨0, ⟨emptyVectorMeta CAP, []⟩⟩] }

/-- The inner append-loop body for the list column. -/
def writeListChunk (CAP : Nat) [Inhabited α] (input : ListDataChunk α)
    (offset amount : Nat) (chunk : ListChunkMetaData α) : ListChunkMetaData α :=
  { count := chunk.count + amount,
    root := columnDataCopyList CAP chunk.root input.entries input.child input.childTotal
      offset amount }

/-- One iteration of the append loop for the list collection
(source lines 350-370). -/
def appendStepL (CAP : Nat) [Inhabited α] (input : ListDataChunk α)
    (seg : ListSegment α) (remaining : Nat) : ListSegment α × Nat :=
  let chunk := seg.chunk_data.getLastD default
  let append_amount := min remaining (CAP - chunk.count)
  let seg1 :=
    if 0 < append_amount then
      { seg with
        chunk_data :=
          updateLast (writeListChunk CAP input (input.size - remaining) append_amount)
            seg.chunk_data }
    else seg
  let remaining1 := remaining - append_amount
  let seg2 := if 0 < remaining1 then allocateNewListChunk CAP seg1 else seg1
  (seg2, remaining1)

/-- The append loop for the list collection (same two-step progress and
budget argument as `appendLoopAux`). -/
def appendLoopLAux (CAP : Nat) [Inhabited α] (input : ListDataChunk α) :
    Nat → ListSegment α → Nat → ListSegment α
  | 0, seg, _ => seg
  | fuel + 1, seg, remaining =>
    if remaining = 0 then seg
    else
      let s1 := appendStepL CAP input seg remaining
      if s1.2 < remaining then appendLoopLAux CAP input fuel s1.1 s1.2
      else
        let s2 := appendStepL CAP input s1.1 remaining
        if s2.2 < remaining then appendLoopLAux CAP input fuel s2.1 s2.2
        else s2.1

/-- The list append loop with its sufficient budget. -/
def appendLoopL (CAP : Nat) [Inhabited α] (input : ListDataChunk α)
    (seg : ListSegment α) (remaining : Nat) : ListSegment α :=
  appendLoopLAux CAP input remaining seg remaining

/-- `ColumnDataCollection::Append` for the list collection. -/
def ListCollection.append (CAP : Nat) [Inhabited α] (c : ListCollection α)
    (input : ListDataChunk α) : ListCollection α :=
  let segments := if c.segments.isEmpty then [default] else c.segments
  let seg := segments.getLastD default
  let seg := if seg.chunk_data.isEmpty then allocateNewListChunk CAP seg else seg
  let seg := appendLoopL CAP input seg input.size
  let seg := { seg with count := seg.count + input.size }
  { count := c.count + input.size, segments := updateLast (fun _ => seg) segments }

/-- Append a sequence of list batches. -/
def appendAllL (CAP : Nat) [Inhabited α] (c : ListCollection α) :
    List (ListDataChunk α) → ListCollection α
  | [] => c
  | b :: bs => appendAllL CAP (c.append CAP b) bs

/-- The empty list collection. -/
def emptyListCollection : ListCollection α := ⟨0, []⟩

/-- The flattened child storage of one chunk's child chain, in chain order. -/
def chainVals (root : ListVectorMeta α) : List (Option α) :=
  (root.chain.map fun s => s.data).flatten

/-- The run of flattened child storage a stored list entry references
(an unwritten/invalid entry references nothing). -/
def chunkEntrySlice (chunk : ListChunkMetaData α) (r : Nat) : List (Option α) :=
  match chunk.root.meta.data.getD r none with
  | some e => ((chainVals chunk.root).drop e.1).take e.2
  | none => []

/-- All entry-referenced runs of one chunk, in row order. -/
def chunkEntrySlices (chunk : ListChunkMetaData α) : List (List (Option α)) :=
  (List.range chunk.count).map (chunkEntrySlice chunk)

/-- All chunks of a list collection, in scan order. -/
def allListChunks (c : ListCollection α) : List (ListChunkMetaData α) :=
  (c.segments.map fun s => s.chunk_data).flatten

/-- Every stored list value of the collection: per chunk and row, the child
run its stored entry references. -/
def storedLists (c : ListCollection α) : List (List (Option α)) :=
  ((allListChunks c).map chunkEntrySlices).flatten

/-- Sum of the first `r` list lengths: the tiled start offset of entry `r`. -/
def partialSum (lens : List Nat) (r : Nat) : Nat := (lens.take r).sum

/-- The input batch's list entries tile its child array: entry `r` is
`(sum of previous lengths, lens[r])`, the child count is the total length,
selection is the identity (complex types are `Normalify`-flattened before
`Orrify`, source lines 342-347), and no list row is NULL. -/
def TiledEntries (b : ListDataChunk α) (lens : List Nat) : Prop :=
  b.size = lens.length ∧ b.childTotal = lens.sum ∧ b.entries.validity = none ∧
    ∀ r < b.size, b.entries.sel r = r ∧ b.entries.data r = (partialSum lens r, lens.getD r 0)

/-- The logical lists an input batch carries, as runs of child cells. -/
def batchLists (b : ListDataChunk α) (lens : List Nat) : List (List (Option α)) :=
  (List.range lens.length).map fun r =>
    (List.range (lens.getD r 0)).map fun j => b.child.cell (partialSum lens r + j)

/-! ## Basic reading lemmas for bit arrays -/

theorem getD_range_map (f : Nat → β) (n j : Nat) (d : β) :
    ((List.range n).map f).getD j d = if j < n then f j else d := by
  by_cases h : j < n
  · simp [List.getD_eq_getElem?_getD, List.getElem?_map, List.getElem?_range h, h]
  · rw [List.getD_eq_getElem?_getD, List.getElem?_eq_none]
    · simp [h]
    · simpa using Nat.le_of_not_lt h

theorem getD_replicate_entry (a d : β) (n j : Nat) :
    (List.replicate n a).getD j d = if j < n then a else d := by
  by_cases h : j < n
  · simp [List.getD_eq_getElem?_getD, List.getElem?_replicate, h]
  · rw [List.getD_eq_getElem?_getD, List.getElem?_eq_none] <;> simp [h, Nat.le_of_not_lt h]

theorem testBit_maxEntry (j : Nat) : Nat.testBit maxEntry j = decide (j < 64) := by
  unfold maxEntry
  exact Nat.testBit_two_pow_sub_one 64 j

theorem wordsBit_allOnes (n i : Nat) :
    wordsBit (allOnesWords n) i = decide (i / 64 < n) := by
  unfold wordsBit allOnesWords
  rw [getD_replicate_entry]
  by_cases h : i / 64 < n
  · simp [h, testBit_maxEntry, Nat.mod_lt i (by omega : 0 < 64)]
  · simp [h]

theorem wordsBit_zeros (n i : Nat) : wordsBit (List.replicate n 0) i = false := by
  unfold wordsBit
  rw [getD_replicate_entry]
  by_cases h : i / 64 < n <;> simp [h]

theorem length_clearBitWords (ws : List Nat) (i : Nat) :
    (clearBitWords ws i).length = ws.length := by
  simp [clearBitWords]

theorem wordsBit_clearBit (ws : List Nat) (i j : Nat) (hi : i / 64 < ws.length) :
    wordsBit (clearBitWords ws i) j = if j = i then false else wordsBit ws j := by
  unfold wordsBit clearBitWords
  by_cases hd : j / 64 = i / 64
  · rw [hd, List.getD_eq_getElem?_getD, List.getElem?_set_self hi]
    have h1 : (1 : Nat) <<< (i % 64) = 2 ^ (i % 64) := by rw [Nat.shiftLeft_eq, one_mul]
    rw [h1]
    by_cases hm : j % 64 = i % 64
    · have hij : j = i := by omega
      simp [hij, Nat.testBit_land, Nat.testBit_xor, testBit_maxEntry,
        Nat.mod_lt i (by omega : 0 < 64), Nat.testBit_two_pow]
    · have hij : j ≠ i := by omega
      simp only [Option.getD_some, Nat.testBit_land, Nat.testBit_xor, testBit_maxEntry,
        Nat.testBit_two_pow, hij, if_neg hij]
      have : ¬(i % 64 = j % 64) := fun h => hm h.symm
      simp [this, Nat.mod_lt j (by omega : 0 < 64), List.getD_eq_getElem?_getD, hd]
  · have hij : j ≠ i := by omega
    rw [List.getD_eq_getElem?_getD, List.getElem?_set_ne (fun h => hd h.symm)]
    simp [hij, List.getD_eq_getElem?_getD]

/-! ## The validity copy -/

theorem clearFold_length (q : Nat → Bool) (toff : Nat) :
    ∀ (l : List Nat) (ws : List Nat),
      (l.foldl (fun acc i => if q i then acc else clearBitWords acc (toff + i)) ws).length
        = ws.length
  | [], _ => rfl
  | a :: l, ws => by
    rw [List.foldl_cons]
    by_cases hq : q a
    · rw [if_pos hq]; exact clearFold_length q toff l ws
    · rw [if_neg hq, clearFold_length q toff l _, length_clearBitWords]

theorem clearFold_read (q : Nat → Bool) (toff : Nat) :
    ∀ (l : List Nat) (ws : List Nat) (j : Nat),
      (∀ i ∈ l, (toff + i) / 64 < ws.length) →
      ((¬ ∃ i ∈ l, q i = false ∧ toff + i = j) →
        wordsBit (l.foldl (fun acc i => if q i then acc else clearBitWords acc (toff + i)) ws) j
          = wordsBit ws j) ∧
      ((∃ i ∈ l, q i = false ∧ toff + i = j) →
        wordsBit (l.foldl (fun acc i => if q i then acc else clearBitWords acc (toff + i)) ws) j
          = false)
  | [], ws, j => by simp
  | a :: l, ws, j => by
    intro hidx
    rw [List.foldl_cons]
    by_cases hq : q a
    · rw [if_pos hq]
      have ih := clearFold_read q toff l ws j (fun i hi => hidx i (List.mem_cons_of_mem a hi))
      constructor
      · intro hne
        exact ih.1 fun ⟨i, hi, hqi, hj⟩ => hne ⟨i, List.mem_cons_of_mem a hi, hqi, hj⟩
      · rintro ⟨i, hi, hqi, hj⟩
        rcases List.mem_cons.1 hi with rfl | hi
        · exact absurd hqi (by simp [hq])
        · exact ih.2 ⟨i, hi, hqi, hj⟩
    · rw [if_neg hq]
      have hlen : (clearBitWords ws (toff + a)).length = ws.length := length_clearBitWords ..
      have ih := clearFold_read q toff l (clearBitWords ws (toff + a)) j
        (fun i hi => by rw [hlen]; exact hidx i (List.mem_cons_of_mem a hi))
      have hread := wordsBit_clearBit ws (toff + a) j (hidx a (List.mem_cons_self a l))
      constructor
      · intro hne
        have hja : j ≠ toff + a := fun h =>
          hne ⟨a, List.mem_cons_self a l, by simp [hq], h.symm⟩
        rw [ih.1 (fun ⟨i, hi, hqi, hj⟩ => hne ⟨i, List.mem_cons_of_mem a hi, hqi, hj⟩), hread,
          if_neg hja]
      · rintro ⟨i, hi, hqi, hj⟩
        rcases List.mem_cons.1 hi with rfl | hi
        · by_cases hrest : ∃ i ∈ l, q i = false ∧ toff + i = j
          · exact ih.2 hrest
          · rw [ih.1 hrest, hread, if_pos hj.symm]
        · exact ih.2 ⟨i, hi, hqi, hj⟩

/-- The base array `ColumnDataCopyValidity` starts from: a fresh all-ones
array on the first append, the existing bits otherwise. -/
def copyValidityBase (CAP : Nat) (target : List Nat) (target_offset : Nat) : List Nat :=
  if target_offset = 0 then allOnesWords (entryCount CAP) else target

theorem entryCount_bits (CAP : Nat) : CAP ≤ 64 * entryCount CAP := by
  unfold entryCount; omega

theorem columnDataCopyValidity_spec (CAP : Nat) (src : VectorData α) (target : List Nat)
    (soff toff n : Nat) (hlen : target.length = entryCount CAP) (hn : toff + n ≤ CAP) :
    (columnDataCopyValidity CAP src target soff toff n).length = entryCount CAP ∧
    (∀ j, (j < toff ∨ toff + n ≤ j) →
      wordsBit (columnDataCopyValidity CAP src target soff toff n) j
        = wordsBit (copyValidityBase CAP target toff) j) ∧
    (∀ i < n,
      wordsBit (columnDataCopyValidity CAP src target soff toff n) (toff + i)
        = (wordsBit (copyValidityBase CAP target toff) (toff + i)
            && vmaskRowIsValid src.validity (src.sel (soff + i)))) := by
  have hbase : (copyValidityBase CAP target toff).length = entryCount CAP := by
    unfold copyValidityBase
    by_cases h : toff = 0 <;> simp [h, allOnesWords, hlen]
  unfold columnDataCopyValidity
  simp only [copyValidityBase] at hbase ⊢
  rcases hv : src.validity with _ | ws
  · refine ⟨by simpa [vmaskAllValid] using hbase, ?_, ?_⟩
    · intro j _; simp [vmaskAllValid]
    · intro i _; simp [vmaskAllValid, vmaskRowIsValid]
  · have hidx : ∀ i ∈ List.range n,
        (toff + i) / 64
          < (if toff = 0 then allOnesWords (entryCount CAP) else target).length := by
      intro i hi
      rw [hbase]
      have := List.mem_range.1 hi
      have := entryCount_bits CAP
      omega
    have hfold := clearFold_read
      (fun i => vmaskRowIsValid (some ws) (src.sel (soff + i))) toff (List.range n)
      (if toff = 0 then allOnesWords (entryCount CAP) else target)
    refine ⟨?_, ?_, ?_⟩
    · simp only [vmaskAllValid, Bool.false_eq_true, if_false]
      rw [clearFold_length]
      exact hbase
    · intro j hj
      simp only [vmaskAllValid, Bool.false_eq_true, if_false]
      exact (hfold j hidx).1 fun ⟨i, hi, _, hij⟩ => by
        have := List.mem_range.1 hi; omega
    · intro i hi
      simp only [vmaskAllValid, Bool.false_eq_true, if_false]
      by_cases hq : vmaskRowIsValid (some ws) (src.sel (soff + i)) = false
      · rw [(hfold (toff + i) hidx).2 ⟨i, List.mem_range.2 hi, hq, rfl⟩, hq, Bool.and_false]
      · have hq' := Bool.eq_true_of_ne_false hq
        rw [(hfold (toff + i) hidx).1 ?_, hq', Bool.and_true]
        rintro ⟨i', hi', hqi', hij'⟩
        have : i' = i := by omega
        exact hq (this ▸ hqi')

/-! ## The scalar copy function -/

/-- Well-formedness of one stored slot: the value region holds exactly the
written prefix, the validity region has the standard entry count, and — once
the slot has been written at least once — every bit at or above the running
count is still set (the first write sets all bits; later writes only clear
bits below the new count). -/
def SlotWF (CAP : Nat) (slot : VectorMetaData α) : Prop :=
  slot.data.length = slot.count ∧ slot.validity.length = entryCount CAP ∧
    (0 < slot.count → ∀ j, slot.count ≤ j → j < 64 * entryCount CAP →
      wordsBit slot.validity j = true)

theorem copyValidityBase_above (CAP : Nat) (slot : VectorMetaData α)
    (hwf : SlotWF CAP slot) (j : Nat) (hj : slot.count ≤ j)
    (hj2 : j < 64 * entryCount CAP) :
    wordsBit (copyValidityBase CAP slot.validity slot.count) j = true := by
  unfold copyValidityBase
  by_cases h0 : slot.count = 0
  · rw [if_pos h0, wordsBit_allOnes]
    simp only [decide_eq_true_eq]
    omega
  · rw [if_neg h0]
    exact hwf.2.2 (by omega) j hj hj2

theorem tcdc_count (CAP : Nat) (op : α → α) (slot : VectorMetaData α) (src : VectorData α)
    (soff n : Nat) :
    (templatedColumnDataCopy CAP op slot src soff n).count = slot.count + n := rfl

theorem tcdc_validity (CAP : Nat) (op : α → α) (slot : VectorMetaData α) (src : VectorData α)
    (soff n : Nat) :
    (templatedColumnDataCopy CAP op slot src soff n).validity
      = columnDataCopyValidity CAP src slot.validity soff slot.count n := rfl

theorem tcdc_data (CAP : Nat) (op : α → α) (slot : VectorMetaData α) (src : VectorData α)
    (soff n : Nat) :
    (templatedColumnDataCopy CAP op slot src soff n).data
      = slot.data ++ (List.range n).map (fun i =>
          if vmaskRowIsValid src.validity (src.sel (soff + i)) then
            some (op (src.data (src.sel (soff + i))))
          else none) := rfl

theorem templatedColumnDataCopy_spec (CAP : Nat) (op : α → α) (slot : VectorMetaData α)
    (src : VectorData α) (soff n : Nat) (hwf : SlotWF CAP slot)
    (hn : slot.count + n ≤ CAP) :
    (templatedColumnDataCopy CAP op slot src soff n).count = slot.count + n ∧
    SlotWF CAP (templatedColumnDataCopy CAP op slot src soff n) ∧
    (∀ r < slot.count,
      (templatedColumnDataCopy CAP op slot src soff n).cellAt r = slot.cellAt r) ∧
    (∀ i < n,
      (templatedColumnDataCopy CAP op slot src soff n).cellAt (slot.count + i)
        = (src.cell (soff + i)).map op) := by
  obtain ⟨hd, hv, hset⟩ := hwf
  have hcv := columnDataCopyValidity_spec CAP src slot.validity soff slot.count n hv hn
  have hbits := entryCount_bits CAP
  refine ⟨tcdc_count .., ⟨?_, ?_, ?_⟩, ?_, ?_⟩
  · rw [tcdc_data, tcdc_count, List.length_append, List.length_map, List.length_range, hd]
  · rw [tcdc_validity]
    exact hcv.1
  · intro hpos j hj hj2
    rw [tcdc_count] at hj
    rw [tcdc_validity, hcv.2.1 j (Or.inr hj)]
    exact copyValidityBase_above CAP slot ⟨hd, hv, hset⟩ j (by omega) hj2
  · -- old cells unchanged
    intro r hr
    unfold VectorMetaData.cellAt
    rw [tcdc_validity, tcdc_data, hcv.2.1 r (Or.inl hr)]
    unfold copyValidityBase
    rw [if_neg (show ¬slot.count = 0 by omega), List.getD_append _ _ _ _ (by omega)]
  · -- new cells record the source cells
    intro i hi
    unfold VectorMetaData.cellAt
    rw [tcdc_validity, tcdc_data, hcv.2.2 i hi,
      copyValidityBase_above CAP slot ⟨hd, hv, hset⟩ (slot.count + i) (by omega) (by omega),
      Bool.true_and, List.getD_append_right _ _ _ _ (by omega),
      show slot.count + i - slot.data.length = i from by omega, getD_range_map, if_pos hi]
    unfold VectorData.cell
    by_cases hval : vmaskRowIsValid src.validity (src.sel (soff + i)) <;> simp [hval]

/-! ## List helper lemmas for last-element mutation -/

theorem getLastD_singleton (x d : β) : ([x] : List β).getLastD d = x := rfl

theorem mem_getLastD : ∀ (l : List β), l ≠ [] → ∀ d, l.getLastD d ∈ l
  | [x], _ => by simp [getLastD_singleton]
  | x :: y :: xs, _ => by
    intro d
    rw [List.getLastD_cons]
    exact List.mem_cons_of_mem x (mem_getLastD (y :: xs) (by simp) x)

theorem updateLast_ne_nil (f : β → β) : ∀ (l : List β), l ≠ [] → updateLast f l ≠ []
  | [x], _ => by simp [updateLast]
  | x :: y :: xs, _ => by simp [updateLast]

theorem getLastD_updateLast (f : β → β) :
    ∀ (l : List β), l ≠ [] → ∀ d, (updateLast f l).getLastD d = f (l.getLastD d)
  | [x], _ => by intro d; rfl
  | x :: y :: xs, _ => by
    intro d
    show (x :: updateLast f (y :: xs)).getLastD d = _
    rw [List.getLastD_cons, List.getLastD_cons]
    exact getLastD_updateLast f (y :: xs) (by simp) x

theorem mem_updateLast (f : β → β) {P : β → Prop} :
    ∀ (l : List β) (d : β), (∀ x ∈ l, P x) → P (f (l.getLastD d)) →
      ∀ y ∈ updateLast f l, P y
  | [], _, _, _ => by simp [updateLast]
  | [x], d, _, hf => by
    simpa [updateLast, getLastD_singleton] using hf
  | x :: y :: xs, d, hall, hf => by
    intro z hz
    rw [show updateLast f (x :: y :: xs) = x :: updateLast f (y :: xs) from rfl] at hz
    rcases List.mem_cons.1 hz with rfl | hz
    · exact hall z (List.mem_cons_self z _)
    · exact mem_updateLast f (y :: xs) x (fun w hw => hall w (List.mem_cons_of_mem x hw))
        (by rwa [List.getLastD_cons] at hf) z hz

theorem flatten_map_updateLast (f : β → List γ) (g : β → β) (e : List γ) :
    ∀ (l : List β) (d : β), l ≠ [] → f (g (l.getLastD d)) = f (l.getLastD d) ++ e →
      ((updateLast g l).map f).flatten = (l.map f).flatten ++ e
  | [x], d, _, h => by
    rw [getLastD_singleton] at h
    simp [updateLast, h]
  | x :: y :: xs, d, _, h => by
    rw [List.getLastD_cons] at h
    show ((x :: updateLast g (y :: xs)).map f).flatten = _
    rw [List.map_cons, List.flatten_cons, List.map_cons, List.flatten_cons,
      flatten_map_updateLast f g e (y :: xs) x (by simp) h, List.append_assoc]

/-! ## Chunk- and segment-level append invariants -/

/-- Well-formedness of one chunk: one root slot per schema column, each slot
well formed and advancing in lockstep with the chunk count, the count capped
by the chunk capacity. -/
def ChunkWF (CAP ncols : Nat) (chunk : ChunkMetaData α) : Prop :=
  chunk.vector_data.length = ncols ∧ chunk.count ≤ CAP ∧
    ∀ vi < ncols, SlotWF CAP (chunk.vector_data.getD vi default) ∧
      (chunk.vector_data.getD vi default).count = chunk.count

/-- The logical rows a window of a flattened input batch holds. -/
def sliceRows [Inhabited α] (cols : List (VectorData α)) (ncols offset m : Nat) :
    List (List (Option α)) :=
  (List.range m).map fun i =>
    (List.range ncols).map fun c => (cols.getD c default).cell (offset + i)

theorem sliceRows_zero [Inhabited α] (cols : List (VectorData α)) (ncols offset : Nat) :
    sliceRows cols ncols offset 0 = [] := rfl

theorem sliceRows_split [Inhabited α] (cols : List (VectorData α)) (ncols offset a b : Nat) :
    sliceRows cols ncols offset (a + b)
      = sliceRows cols ncols offset a ++ sliceRows cols ncols (offset + a) b := by
  unfold sliceRows
  rw [List.range_add, List.map_append, List.map_map]
  congr 1
  apply List.map_congr_left
  intro i _
  simp only [Function.comp_apply]
  congr 1
  funext c
  congr 1
  omega

/-- The fresh chunk `allocate_new_chunk` creates is well formed and empty. -/
theorem freshChunk_wf (CAP ncols : Nat) (hcap : 0 < CAP) :
    ChunkWF CAP ncols (⟨0, List.replicate ncols (emptyVectorMeta CAP)⟩ : ChunkMetaData α) ∧
    readChunkRows ncols (⟨0, List.replicate ncols (emptyVectorMeta CAP)⟩ : ChunkMetaData α)
      = [] := by
  refine ⟨⟨by simp, Nat.zero_le CAP, ?_⟩, by simp [readChunkRows]⟩
  intro vi hvi
  show SlotWF CAP ((List.replicate ncols (emptyVectorMeta CAP)).getD vi default) ∧ _
  rw [getD_replicate_entry, if_pos hvi]
  exact ⟨⟨rfl, by simp [emptyVectorMeta], by simp [emptyVectorMeta]⟩, rfl⟩

theorem writeChunkColumns_spec (CAP ncols : Nat) [Inhabited α] (cols : List (VectorData α))
    (offset amount : Nat) (chunk : ChunkMetaData α) (hwf : ChunkWF CAP ncols chunk)
    (hcap : chunk.count + amount ≤ CAP) :
    ChunkWF CAP ncols (writeChunkColumns CAP ncols cols offset amount chunk) ∧
    (writeChunkColumns CAP ncols cols offset amount chunk).count = chunk.count + amount ∧
    readChunkRows ncols (writeChunkColumns CAP ncols cols offset amount chunk)
      = readChunkRows ncols chunk ++ sliceRows cols ncols offset amount := by
  obtain ⟨hlen, hcnt, hslots⟩ := hwf
  have hslot : ∀ vi, vi < ncols →
      (writeChunkColumns CAP ncols cols offset amount chunk).vector_data.getD vi default
        = templatedColumnDataCopy CAP id (chunk.vector_data.getD vi default)
            (cols.getD vi default) offset amount := by
    intro vi hvi
    show ((List.range ncols).map _).getD vi default = _
    rw [getD_range_map, if_pos hvi]
  have hspec : ∀ vi, vi < ncols →
      (templatedColumnDataCopy CAP id (chunk.vector_data.getD vi default)
          (cols.getD vi default) offset amount).count
        = (chunk.vector_data.getD vi default).count + amount ∧
      SlotWF CAP (templatedColumnDataCopy CAP id (chunk.vector_data.getD vi default)
          (cols.getD vi default) offset amount) ∧
      (∀ r < (chunk.vector_data.getD vi default).count,
        (templatedColumnDataCopy CAP id (chunk.vector_data.getD vi default)
            (cols.getD vi default) offset amount).cellAt r
          = (chunk.vector_data.getD vi default).cellAt r) ∧
      (∀ i < amount,
        (templatedColumnDataCopy CAP id (chunk.vector_data.getD vi default)
            (cols.getD vi default) offset amount).cellAt
            ((chunk.vector_data.getD vi default).count + i)
          = ((cols.getD vi default).cell (offset + i)).map id) := by
    intro vi hvi
    exact templatedColumnDataCopy_spec CAP id (chunk.vector_data.getD vi default)
      (cols.getD vi default) offset amount (hslots vi hvi).1
      (by rw [(hslots vi hvi).2]; omega)
  refine ⟨⟨by simp [writeChunkColumns], hcap, ?_⟩, rfl, ?_⟩
  · intro vi hvi
    rw [hslot vi hvi]
    exact ⟨(hspec vi hvi).2.1,
      by rw [(hspec vi hvi).1, (hslots vi hvi).2]; rfl⟩
  · unfold readChunkRows
    rw [show (writeChunkColumns CAP ncols cols offset amount chunk).count
        = chunk.count + amount from rfl, List.range_add, List.map_append]
    congr 1
    · apply List.map_congr_left
      intro r hr
      apply List.map_congr_left
      intro c hc
      rw [hslot c (List.mem_range.1 hc)]
      exact (hspec c (List.mem_range.1 hc)).2.2.1 r
        (by rw [(hslots c (List.mem_range.1 hc)).2]; exact List.mem_range.1 hr)
    · unfold sliceRows
      rw [List.map_map]
      apply List.map_congr_left
      intro i hi
      simp only [Function.comp_apply]
      apply List.map_congr_left
      intro c hc
      have hceq := (hspec c (List.mem_range.1 hc)).2.2.2 i (List.mem_range.1 hi)
      rw [(hslots c (List.mem_range.1 hc)).2] at hceq
      rw [hslot c (List.mem_range.1 hc), hceq, Option.map_id, id_eq]

/-- Well-formedness of a segment's chunk list together with its read-back:
the chunk list is nonempty, every chunk is well formed, and reading all
chunks in order yields exactly `rows`. -/
def SegChunksWF (CAP ncols : Nat) (seg : ColumnDataCollectionSegment α)
    (rows : List (List (Option α))) : Prop :=
  seg.chunk_data ≠ [] ∧ (∀ ch ∈ seg.chunk_data, ChunkWF CAP ncols ch) ∧
    (seg.chunk_data.map (readChunkRows ncols)).flatten = rows

/-- The current chunk an append writes into (`chunk_data.back()`). -/
def lastChunk (seg : ColumnDataCollectionSegment α) : ChunkMetaData α :=
  seg.chunk_data.getLastD default

theorem allocateNewChunk_spec (CAP ncols : Nat) (hcap : 0 < CAP)
    (seg : ColumnDataCollectionSegment α) (rows : List (List (Option α)))
    (hwf : SegChunksWF CAP ncols seg rows) :
    SegChunksWF CAP ncols (allocateNewChunk CAP ncols seg) rows ∧
    lastChunk (allocateNewChunk CAP ncols seg)
      = ⟨0, List.replicate ncols (emptyVectorMeta CAP)⟩ := by
  obtain ⟨hne, hall, hrows⟩ := hwf
  obtain ⟨hfwf, hfrows⟩ := freshChunk_wf (α := α) CAP ncols hcap
  refine ⟨⟨by simp [allocateNewChunk], ?_, ?_⟩, ?_⟩
  · intro ch hch
    rcases List.mem_append.1 hch with hch | hch
    · exact hall ch hch
    · rw [List.mem_singleton.1 hch]; exact hfwf
  · show ((seg.chunk_data ++ [_]).map _).flatten = rows
    rw [List.map_append, List.flatten_append]
    simp [hfrows, hrows]
  · show (seg.chunk_data ++ [_]).getLastD default = _
    rw [List.getLastD_concat]

theorem freshSegment_wf (CAP ncols : Nat) (hcap : 0 < CAP) :
    SegChunksWF CAP ncols
      (allocateNewChunk CAP ncols (default : ColumnDataCollectionSegment α)) [] ∧
    lastChunk (allocateNewChunk CAP ncols (default : ColumnDataCollectionSegment α))
      = ⟨0, List.replicate ncols (emptyVectorMeta CAP)⟩ := by
  obtain ⟨hfwf, hfrows⟩ := freshChunk_wf (α := α) CAP ncols hcap
  refine ⟨⟨by simp [allocateNewChunk], ?_, ?_⟩, rfl⟩
  · intro ch hch
    rw [show (allocateNewChunk CAP ncols (default : ColumnDataCollectionSegment α)).chunk_data
      = [⟨0, List.replicate ncols (emptyVectorMeta CAP)⟩] from rfl] at hch
    rw [List.mem_singleton.1 hch]
    exact hfwf
  · show ([(⟨0, List.replicate ncols (emptyVectorMeta CAP)⟩ : ChunkMetaData α)].map _).flatten
      = []
    simp [hfrows]

theorem segWrite_spec (CAP ncols : Nat) [Inhabited α] (cols : List (VectorData α))
    (offset amount : Nat) (seg : ColumnDataCollectionSegment α)
    (rows : List (List (Option α))) (hwf : SegChunksWF CAP ncols seg rows)
    (hcap : (lastChunk seg).count + amount ≤ CAP) :
    SegChunksWF CAP ncols (segWrite CAP ncols cols offset amount seg)
      (rows ++ sliceRows cols ncols offset amount) ∧
    (lastChunk (segWrite CAP ncols cols offset amount seg)).count
      = (lastChunk seg).count + amount := by
  obtain ⟨hne, hall, hrows⟩ := hwf
  have hlwf : ChunkWF CAP ncols (lastChunk seg) := hall _ (mem_getLastD _ hne default)
  have hw := writeChunkColumns_spec CAP ncols cols offset amount (lastChunk seg) hlwf hcap
  have hsw : (segWrite CAP ncols cols offset amount seg).chunk_data
      = updateLast (writeChunkColumns CAP ncols cols offset amount) seg.chunk_data := rfl
  refine ⟨⟨?_, ?_, ?_⟩, ?_⟩
  · rw [hsw]; exact updateLast_ne_nil _ _ hne
  · rw [hsw]; exact mem_updateLast _ _ default hall hw.1
  · rw [hsw, flatten_map_updateLast (readChunkRows ncols) _
      (sliceRows cols ncols offset amount) seg.chunk_data default hne hw.2.2, hrows]
  · show ((segWrite CAP ncols cols offset amount seg).chunk_data.getLastD default).count = _
    rw [hsw, getLastD_updateLast _ seg.chunk_data hne default]
    exact hw.2.1

theorem appendStep_full (CAP ncols : Nat) [Inhabited α] (cols : List (VectorData α))
    (inputSize : Nat) (seg : ColumnDataCollectionSegment α) (remaining : Nat)
    (hfull : CAP ≤ (lastChunk seg).count) (hr : 0 < remaining) :
    appendStep CAP ncols cols inputSize seg remaining
      = (allocateNewChunk CAP ncols seg, remaining) := by
  unfold appendStep
  have h0 : min remaining (CAP - (seg.chunk_data.getLastD default).count) = 0 := by
    have : CAP ≤ (seg.chunk_data.getLastD (default : ChunkMetaData α)).count := hfull
    omega
  simp only [h0, Nat.lt_irrefl, if_false, Nat.sub_zero, if_pos hr]

theorem appendStep_progress (CAP ncols : Nat) [Inhabited α] (cols : List (VectorData α))
    (inputSize : Nat) (seg : ColumnDataCollectionSegment α) (remaining : Nat)
    (rows : List (List (Option α))) (hwf : SegChunksWF CAP ncols seg rows)
    (hr : 0 < remaining) (hcap : 0 < CAP) (hlt : (lastChunk seg).count < CAP) :
    0 < min remaining (CAP - (lastChunk seg).count) ∧
    (appendStep CAP ncols cols inputSize seg remaining).2
      = remaining - min remaining (CAP - (lastChunk seg).count) ∧
    SegChunksWF CAP ncols (appendStep CAP ncols cols inputSize seg remaining).1
      (rows ++ sliceRows cols ncols (inputSize - remaining)
        (min remaining (CAP - (lastChunk seg).count))) := by
  have hl : (lastChunk seg) = seg.chunk_data.getLastD default := rfl
  have ha0 : 0 < min remaining (CAP - (lastChunk seg).count) := by
    rw [hl] at hlt ⊢
    omega
  have hsw := segWrite_spec CAP ncols cols (inputSize - remaining)
    (min remaining (CAP - (lastChunk seg).count)) seg rows hwf (by omega)
  unfold appendStep
  dsimp only
  rw [← hl, if_pos ha0]
  refine ⟨ha0, rfl, ?_⟩
  by_cases hrem : 0 < remaining - min remaining (CAP - (lastChunk seg).count)
  · rw [if_pos hrem]
    exact (allocateNewChunk_spec CAP ncols hcap _ _ hsw.1).1
  · rw [if_neg hrem]
    exact hsw.1

theorem appendLoopAux_spec (CAP ncols : Nat) [Inhabited α] (cols : List (VectorData α))
    (inputSize : Nat) (fuel : Nat) :
    ∀ (seg : ColumnDataCollectionSegment α) (remaining : Nat)
      (rows : List (List (Option α))),
      remaining ≤ fuel → remaining ≤ inputSize → 0 < CAP →
      SegChunksWF CAP ncols seg rows →
      SegChunksWF CAP ncols (appendLoopAux CAP ncols cols inputSize fuel seg remaining)
        (rows ++ sliceRows cols ncols (inputSize - remaining) remaining) := by
  induction fuel with
  | zero =>
    intro seg remaining rows hf _ _ hwf
    have h0 : remaining = 0 := by omega
    subst h0
    simpa [appendLoopAux, sliceRows] using hwf
  | succ fuel ih =>
    intro seg remaining rows hf hin hcap hwf
    by_cases h0 : remaining = 0
    · subst h0
      simpa [appendLoopAux, sliceRows] using hwf
    · have hr : 0 < remaining := by omega
      have hstep : ∀ (seg' : ColumnDataCollectionSegment α)
          (rows' : List (List (Option α))), SegChunksWF CAP ncols seg' rows' →
          (lastChunk seg').count < CAP →
          SegChunksWF CAP ncols
            (appendLoopAux CAP ncols cols inputSize fuel
              (appendStep CAP ncols cols inputSize seg' remaining).1
              (appendStep CAP ncols cols inputSize seg' remaining).2)
            (rows' ++ sliceRows cols ncols (inputSize - remaining) remaining) ∧
          (appendStep CAP ncols cols inputSize seg' remaining).2 < remaining := by
        intro seg' rows' hwf' hlt
        obtain ⟨ha0, hrem, hwfs⟩ :=
          appendStep_progress CAP ncols cols inputSize seg' remaining rows' hwf' hr hcap hlt
        have hlt2 : (appendStep CAP ncols cols inputSize seg' remaining).2 < remaining := by
          rw [hrem]; omega
        refine ⟨?_, hlt2⟩
        have := ih (appendStep CAP ncols cols inputSize seg' remaining).1
          (appendStep CAP ncols cols inputSize seg' remaining).2
          (rows' ++ sliceRows cols ncols (inputSize - remaining)
            (min remaining (CAP - (lastChunk seg').count)))
          (by omega) (by omega) hcap hwfs
        rw [hrem] at this
        rw [show rows' ++ sliceRows cols ncols (inputSize - remaining) remaining
            = (rows' ++ sliceRows cols ncols (inputSize - remaining)
                (min remaining (CAP - (lastChunk seg').count)))
              ++ sliceRows cols ncols
                (inputSize - (remaining - min remaining (CAP - (lastChunk seg').count)))
                (remaining - min remaining (CAP - (lastChunk seg').count)) from ?_]
        · exact this
        · rw [List.append_assoc]
          congr 1
          rw [show inputSize - (remaining - min remaining (CAP - (lastChunk seg').count))
              = (inputSize - remaining) + min remaining (CAP - (lastChunk seg').count)
            from by omega]
          rw [← sliceRows_split]
          congr 1
          omega
      have hlast : ChunkWF CAP ncols (lastChunk seg) :=
        hwf.2.1 _ (mem_getLastD _ hwf.1 default)
      by_cases hlt : (lastChunk seg).count < CAP
      · obtain ⟨hres, hlt2⟩ := hstep seg rows hwf hlt
        rw [show appendLoopAux CAP ncols cols inputSize (fuel + 1) seg remaining
            = appendLoopAux CAP ncols cols inputSize fuel
                (appendStep CAP ncols cols inputSize seg remaining).1
                (appendStep CAP ncols cols inputSize seg remaining).2 from ?_]
        · exact hres
        · conv_lhs => rw [appendLoopAux]
          rw [if_neg h0, if_pos hlt2]
      · have hfull := appendStep_full CAP ncols cols inputSize seg remaining (by omega) hr
        have hwfa := (allocateNewChunk_spec CAP ncols hcap seg rows hwf).1
        have hfresh := (allocateNewChunk_spec CAP ncols hcap seg rows hwf).2
        have hlt0 : (lastChunk (allocateNewChunk CAP ncols seg)).count < CAP := by
          rw [hfresh]; exact hcap
        obtain ⟨hres, hlt2⟩ := hstep (allocateNewChunk CAP ncols seg) rows hwfa hlt0
        rw [show appendLoopAux CAP ncols cols inputSize (fuel + 1) seg remaining
            = appendLoopAux CAP ncols cols inputSize fuel
                (appendStep CAP ncols cols inputSize (allocateNewChunk CAP ncols seg)
                  remaining).1
                (appendStep CAP ncols cols inputSize (allocateNewChunk CAP ncols seg)
                  remaining).2 from ?_]
        · exact hres
        · conv_lhs => rw [appendLoopAux]
          rw [if_neg h0, hfull]
          dsimp only
          rw [if_neg (by omega), if_pos hlt2]

theorem appendStep_count (CAP ncols : Nat) [Inhabited α] (cols : List (VectorData α))
    (inputSize : Nat) (seg : ColumnDataCollectionSegment α) (remaining : Nat) :
    (appendStep CAP ncols cols inputSize seg remaining).1.count = seg.count := by
  unfold appendStep segWrite allocateNewChunk
  dsimp only
  split <;> split <;> rfl

theorem appendLoopAux_count (CAP ncols : Nat) [Inhabited α] (cols : List (VectorData α))
    (inputSize : Nat) : ∀ (fuel : Nat) (seg : ColumnDataCollectionSegment α)
      (remaining : Nat),
      (appendLoopAux CAP ncols cols inputSize fuel seg remaining).count = seg.count
  | 0, seg, remaining => rfl
  | fuel + 1, seg, remaining => by
    rw [appendLoopAux]
    by_cases h0 : remaining = 0
    · rw [if_pos h0]
    · rw [if_neg h0]
      by_cases h1 : (appendStep CAP ncols cols inputSize seg remaining).2 < remaining
      · rw [if_pos h1, appendLoopAux_count CAP ncols cols inputSize fuel,
          appendStep_count]
      · rw [if_neg h1]
        by_cases h2 : (appendStep CAP ncols cols inputSize
            (appendStep CAP ncols cols inputSize seg remaining).1 remaining).2 < remaining
        · rw [if_pos h2, appendLoopAux_count CAP ncols cols inputSize fuel,
            appendStep_count, appendStep_count]
        · rw [if_neg h2, appendStep_count, appendStep_count]

/-- The collection invariant along a sequence of appends: not append-closed,
the running count equals the rows appended so far, and either no segment was
created yet (nothing appended) or there is exactly one segment holding
exactly those rows. -/
def CollWF (CAP : Nat) [Inhabited α] (c : ColumnDataCollection α)
    (rows : List (List (Option α))) : Prop :=
  c.finished_append = false ∧ c.count = rows.length ∧
    (c.segments = [] ∧ rows = [] ∨
      ∃ seg, c.segments = [some seg] ∧ SegChunksWF CAP c.types.length seg rows ∧
        seg.count = rows.length)

theorem emptyCollection_wf (CAP : Nat) [Inhabited α] (types : List Nat) :
    CollWF CAP (emptyCollection types : ColumnDataCollection α) [] :=
  ⟨rfl, rfl, Or.inl ⟨rfl, rfl⟩⟩

theorem rows_length [Inhabited α] (b : DataChunk α) : b.rows.length = b.size := by
  unfold DataChunk.rows
  rw [List.length_map, List.length_range]

theorem sliceRows_all [Inhabited α] (b : DataChunk α) (ncols : Nat)
    (hn : ncols = b.types.length) :
    sliceRows b.cols ncols 0 b.size = b.rows := by
  subst hn
  unfold sliceRows DataChunk.rows DataChunk.row
  apply List.map_congr_left
  intro i _
  congr 1
  funext c
  rw [Nat.zero_add]

theorem append_spec (CAP : Nat) [Inhabited α] (c : ColumnDataCollection α)
    (input : DataChunk α) (rows : List (List (Option α))) (hwf : CollWF CAP c rows)
    (hty : input.types = c.types) (hcap : 0 < CAP) :
    ∃ c', c.append CAP input = .ok c' ∧ CollWF CAP c' (rows ++ input.rows) ∧
      c'.types = c.types := by
  obtain ⟨hfin, hcnt, hseg⟩ := hwf
  rcases hseg with ⟨hnil, hrows⟩ | ⟨seg0, hsegs, hswf, hscnt⟩
  · subst hrows
    have happ : c.append CAP input
        = .ok { c with
            count := c.count + input.size
            segments := [some { appendLoop CAP c.types.length input.cols input.size
              (allocateNewChunk CAP c.types.length default) input.size with
                count := (appendLoop CAP c.types.length input.cols input.size
                  (allocateNewChunk CAP c.types.length default) input.size).count
                    + input.size }] } := by
      unfold ColumnDataCollection.append
      rw [hfin, if_neg (by simp), if_neg (by rw [hty]; simp), hnil]
      rfl
    have hfresh := freshSegment_wf (α := α) CAP c.types.length hcap
    have hloop := appendLoopAux_spec CAP c.types.length input.cols input.size input.size
      (allocateNewChunk CAP c.types.length default) input.size []
      (Nat.le_refl _) (Nat.le_refl _) hcap hfresh.1
    rw [Nat.sub_self, List.nil_append,
      sliceRows_all input c.types.length (by rw [hty])] at hloop
    refine ⟨_, happ, ⟨hfin, ?_, Or.inr ⟨_, rfl, ?_, ?_⟩⟩, rfl⟩
    · show c.count + input.size = _
      rw [hcnt, List.nil_append, rows_length]
      simp
    · exact ⟨hloop.1, hloop.2.1, hloop.2.2⟩
    · show (appendLoop CAP c.types.length input.cols input.size
          (allocateNewChunk CAP c.types.length default) input.size).count + input.size = _
      rw [show appendLoop CAP c.types.length input.cols input.size
            (allocateNewChunk CAP c.types.length default) input.size
          = appendLoopAux CAP c.types.length input.cols input.size input.size
            (allocateNewChunk CAP c.types.length default) input.size from rfl,
        appendLoopAux_count, List.nil_append, rows_length]
      show 0 + input.size = input.size
      exact Nat.zero_add _
  · have hne : seg0.chunk_data.isEmpty = false := by
      rcases h : seg0.chunk_data with _ | _
      · exact absurd h hswf.1
      · rfl
    have happ : c.append CAP input
        = .ok { c with
            count := c.count + input.size
            segments := [some { appendLoop CAP c.types.length input.cols input.size
              seg0 input.size with
                count := (appendLoop CAP c.types.length input.cols input.size
                  seg0 input.size).count + input.size }] } := by
      unfold ColumnDataCollection.append
      rw [hfin, if_neg (by simp), if_neg (by rw [hty]; simp), hsegs]
      simp only [List.isEmpty_cons, Bool.false_eq_true, if_false, getLastD_singleton,
        Option.getD_some, hne]
      rfl
    have hloop := appendLoopAux_spec CAP c.types.length input.cols input.size input.size
      seg0 input.size rows (Nat.le_refl _) (Nat.le_refl _) hcap hswf
    rw [Nat.sub_self, sliceRows_all input c.types.length (by rw [hty])] at hloop
    refine ⟨_, happ, ⟨hfin, ?_, Or.inr ⟨_, rfl, ?_, ?_⟩⟩, rfl⟩
    · show c.count + input.size = _
      rw [hcnt, List.length_append, rows_length]
    · exact ⟨hloop.1, hloop.2.1, hloop.2.2⟩
    · show (appendLoop CAP c.types.length input.cols input.size seg0 input.size).count
          + input.size = _
      rw [show appendLoop CAP c.types.length input.cols input.size seg0 input.size
          = appendLoopAux CAP c.types.length input.cols input.size input.size
            seg0 input.size from rfl,
        appendLoopAux_count, List.length_append, rows_length, hscnt]

theorem appendAll_spec (CAP : Nat) [Inhabited α] (tys : List Nat) :
    ∀ (batches : List (DataChunk α)) (c : ColumnDataCollection α)
      (rows : List (List (Option α))),
      CollWF CAP c rows → c.types = tys → (∀ b ∈ batches, b.types = tys) → 0 < CAP →
      ∃ c', appendAll CAP c batches = .ok c' ∧
        CollWF CAP c' (rows ++ (batches.map DataChunk.rows).flatten) ∧ c'.types = tys
  | [], c, rows, hwf, htys, _, _ => ⟨c, rfl, by simpa using hwf, htys⟩
  | b :: bs, c, rows, hwf, htys, hbty, hcap => by
    obtain ⟨c1, happ, hwf1, hty1⟩ := append_spec CAP c b rows hwf
      (by rw [hbty b (List.mem_cons_self b bs), htys]) hcap
    obtain ⟨c', hall, hwf', hty'⟩ := appendAll_spec CAP tys bs c1 (rows ++ b.rows) hwf1
      (by rw [hty1, htys]) (fun b' hb' => hbty b' (List.mem_cons_of_mem b hb')) hcap
    refine ⟨c', ?_, ?_, hty'⟩
    · show appendAll CAP c (b :: bs) = .ok c'
      unfold appendAll
      rw [happ]
      exact hall
    · rw [List.map_cons, List.flatten_cons, ← List.append_assoc]
      exact hwf'

/-! ## Scan enumeration -/

/-- All chunks of a collection in scan order (spec-level enumeration). -/
def allChunksA (c : ColumnDataCollection α) : List (ChunkMetaData α) :=
  ((List.range c.segments.length).map fun si => segChunks c si).flatten

/-- The chunks from scan position `(si, ci)` onward. -/
def chunksFrom (c : ColumnDataCollection α) (si ci : Nat) : List (ChunkMetaData α) :=
  (segChunks c si).drop ci ++
    ((List.range (c.segments.length - (si + 1))).map fun k =>
      segChunks c (si + 1 + k)).flatten

theorem segChunks_out (c : ColumnDataCollection α) (si : Nat)
    (h : c.segments.length ≤ si) : segChunks c si = [] := by
  unfold segChunks
  rw [List.getD_eq_getElem?_getD, List.getElem?_eq_none (by simpa using h)]
  rfl

theorem chunksFrom_out (c : ColumnDataCollection α) (si ci : Nat)
    (h : c.segments.length ≤ si) : chunksFrom c si ci = [] := by
  unfold chunksFrom
  rw [segChunks_out c si h, show c.segments.length - (si + 1) = 0 from by omega]
  simp

theorem chunksFrom_zero (c : ColumnDataCollection α) : chunksFrom c 0 0 = allChunksA c := by
  unfold chunksFrom allChunksA
  rcases h : c.segments.length with _ | L
  · rw [segChunks_out c 0 (by omega)]
    simp
  · rw [List.drop_zero, show L + 1 = 1 + L from by omega, List.range_add]
    simp only [List.map_append, List.flatten_append]
    congr 1
    · simp [List.range_succ]
    · rw [show 1 + L - (0 + 1) = L from by omega, List.map_map]
      congr 1

theorem chunksFrom_advance (c : ColumnDataCollection α) (si ci : Nat)
    (hsi : si < c.segments.length) (hci : (segChunks c si).length ≤ ci) :
    chunksFrom c si ci = chunksFrom c (si + 1) 0 := by
  unfold chunksFrom
  rw [List.drop_eq_nil_of_le hci, List.drop_zero, List.nil_append]
  rcases h : c.segments.length - (si + 1) with _ | L
  · rw [show c.segments.length - (si + 1 + 1) = 0 from by omega, segChunks_out c (si + 1)
      (by omega)]
    simp
  · rw [show c.segments.length - (si + 1 + 1) = L from by omega,
      show L + 1 = 1 + L from by omega, List.range_add]
    simp only [List.map_append, List.flatten_append]
    congr 1
    · simp [List.range_succ]
    · rw [List.map_map]
      congr 1
      apply List.map_congr_left
      intro k _
      simp only [Function.comp_apply]
      congr 1
      omega

theorem chunksFrom_cons (c : ColumnDataCollection α) (si ci : Nat)
    (hci : ci < (segChunks c si).length) :
    chunksFrom c si ci = (segChunks c si).getD ci default :: chunksFrom c si (ci + 1) := by
  unfold chunksFrom
  rw [show (segChunks c si).drop ci
      = (segChunks c si).getD ci default :: (segChunks c si).drop (ci + 1) from ?_]
  · rfl
  · rw [List.getD_eq_getElem?_getD, List.getElem?_eq_getElem hci]
    exact (List.drop_eq_getElem_cons hci).trans rfl

theorem nsiSkipAux_fuel (c : ColumnDataCollection α) :
    ∀ (f1 f2 ci si : Nat), c.segments.length - si < f1 → c.segments.length - si < f2 →
      nsiSkipAux c f1 ci si = nsiSkipAux c f2 ci si
  | f1 + 1, f2 + 1, ci, si, h1, h2 => by
    unfold nsiSkipAux
    by_cases hc : (segChunks c si).length ≤ ci
    · rw [if_pos hc, if_pos hc]
      by_cases hs : c.segments.length ≤ si + 1
      · rw [if_pos hs, if_pos hs]
      · rw [if_neg hs, if_neg hs]
        exact nsiSkipAux_fuel c f1 f2 0 (si + 1) (by omega) (by omega)
    · rw [if_neg hc, if_neg hc]
  | 0, _, ci, si, h1, h2 => by omega
  | f1 + 1, 0, ci, si, h1, h2 => by omega

theorem nsiSkip_advance (c : ColumnDataCollection α) (ci si : Nat)
    (hsi : si < c.segments.length) (hci : (segChunks c si).length ≤ ci) :
    nsiSkip c ci si = nsiSkip c 0 (si + 1) := by
  have h1 : nsiSkip c ci si = nsiSkipAux c ((c.segments.length - si) + 1) ci si :=
    nsiSkipAux_fuel c (c.segments.length + 1) ((c.segments.length - si) + 1) ci si
      (by omega) (by omega)
  rw [h1]
  unfold nsiSkipAux
  rw [if_pos hci]
  by_cases hs : c.segments.length ≤ si + 1
  · rw [if_pos hs]
    symm
    show nsiSkipAux c (c.segments.length + 1) 0 (si + 1) = none
    unfold nsiSkipAux
    rw [if_pos (by rw [segChunks_out c (si + 1) hs]; exact Nat.zero_le 0), if_pos (by omega)]
  · rw [if_neg hs]
    show nsiSkipAux c (c.segments.length - si) 0 (si + 1)
        = nsiSkipAux c (c.segments.length + 1) 0 (si + 1)
    exact nsiSkipAux_fuel c (c.segments.length - si) (c.segments.length + 1) 0 (si + 1)
      (by omega) (by omega)

theorem nsiSkip_stay (c : ColumnDataCollection α) (ci si : Nat)
    (hci : ci < (segChunks c si).length) : nsiSkip c ci si = some (ci, si) := by
  unfold nsiSkip
  rcases h : c.segments.length + 1 with _ | f
  · omega
  · unfold nsiSkipAux
    rw [if_neg (by omega)]

theorem nsiSkip_out (c : ColumnDataCollection α) (ci si : Nat)
    (h : c.segments.length ≤ si) : nsiSkip c ci si = none := by
  unfold nsiSkip
  unfold nsiSkipAux
  rw [if_pos (by rw [segChunks_out c si h]; exact Nat.zero_le ci), if_pos (by omega)]

theorem nsiSkip_char (c : ColumnDataCollection α) :
    ∀ (gas si ci : Nat), c.segments.length - si ≤ gas → si < c.segments.length →
      (nsiSkip c ci si = none ∧ chunksFrom c si ci = []) ∨
      (∃ si' ci', nsiSkip c ci si = some (ci', si') ∧
        ci' < (segChunks c si').length ∧ si' < c.segments.length ∧
        chunksFrom c si ci = chunksFrom c si' ci')
  | 0, si, ci, hg, hsi => by omega
  | gas + 1, si, ci, hg, hsi => by
    by_cases hci : ci < (segChunks c si).length
    · exact Or.inr ⟨si, ci, nsiSkip_stay c ci si hci, hci, hsi, rfl⟩
    · have hadv := nsiSkip_advance c ci si hsi (by omega)
      have hch := chunksFrom_advance c si ci hsi (by omega)
      by_cases hs : c.segments.length ≤ si + 1
      · refine Or.inl ⟨?_, ?_⟩
        · rw [hadv]
          exact nsiSkip_out c 0 (si + 1) hs
        · rw [hch]
          exact chunksFrom_out c (si + 1) 0 hs
      · rcases nsiSkip_char c gas (si + 1) 0 (by omega) (by omega) with ⟨hn, hc⟩ | h
        · exact Or.inl ⟨by rw [hadv]; exact hn, by rw [hch]; exact hc⟩
        · obtain ⟨si', ci', h1, h2, h3, h4⟩ := h
          exact Or.inr ⟨si', ci', by rw [hadv]; exact h1, h2, h3, by rw [hch]; exact h4⟩

theorem nextScanIndex_char (c : ColumnDataCollection α) (si ci a b : Nat) :
    (nextScanIndex c ⟨ci, si, a, b⟩ = none ∧ chunksFrom c si ci = []) ∨
    (∃ si' ci', ci' < (segChunks c si').length ∧ si' < c.segments.length ∧
      nextScanIndex c ⟨ci, si, a, b⟩
        = some ((ci', si', b),
            ⟨ci' + 1, si', b, b + ((segChunks c si').getD ci' default).count⟩) ∧
      chunksFrom c si ci
        = (segChunks c si').getD ci' default :: chunksFrom c si' (ci' + 1)) := by
  by_cases hsi : c.segments.length ≤ si
  · refine Or.inl ⟨?_, chunksFrom_out c si ci hsi⟩
    unfold nextScanIndex
    rw [if_pos hsi]
  · rcases nsiSkip_char c (c.segments.length - si) si ci (Nat.le_refl _) (by omega) with
      ⟨hn, hc⟩ | ⟨si', ci', h1, h2, h3, h4⟩
    · refine Or.inl ⟨?_, hc⟩
      unfold nextScanIndex
      rw [if_neg hsi, hn]
    · refine Or.inr ⟨si', ci', h2, h3, ?_, ?_⟩
      · unfold nextScanIndex
        rw [if_neg hsi, h1]
      · rw [h4]
        exact chunksFrom_cons c si' ci' h2

theorem scanLoop_eq (c : ColumnDataCollection α) :
    ∀ (fuel si ci a b : Nat), (chunksFrom c si ci).length ≤ fuel →
      scanLoop c ⟨ci, si, a, b⟩ fuel
        = (chunksFrom c si ci).map (readChunkRows c.types.length)
  | 0, si, ci, a, b, hf => by
    have h0 : chunksFrom c si ci = [] := List.length_eq_zero.1 (by omega)
    rw [h0]
    rfl
  | fuel + 1, si, ci, a, b, hf => by
    rcases nextScanIndex_char c si ci a b with ⟨hn, hc⟩ | ⟨si', ci', h2, h3, hs, hc⟩
    · rw [hc]
      show (match c.scan ⟨ci, si, a, b⟩ with
        | none => []
        | some (rows, s') => rows :: scanLoop c s' fuel) = []
      unfold ColumnDataCollection.scan
      rw [hn]
    · rw [hc]
      show (match c.scan ⟨ci, si, a, b⟩ with
        | none => []
        | some (rows, s') => rows :: scanLoop c s' fuel) = _
      unfold ColumnDataCollection.scan
      rw [hs]
      have hlen : (chunksFrom c si' (ci' + 1)).length ≤ fuel := by
        have := congrArg List.length hc
        simp only [List.length_cons] at this
        omega
      show readChunkRows c.types.length ((segChunks c si').getD ci' default)
          :: scanLoop c ⟨ci' + 1, si', b, b + ((segChunks c si').getD ci' default).count⟩ fuel
        = _
      rw [List.map_cons, scanLoop_eq c fuel si' (ci' + 1) _ _ hlen]

theorem length_allChunksA (c : ColumnDataCollection α) :
    (allChunksA c).length = totalChunks c := by
  unfold allChunksA totalChunks
  rw [List.length_flatten, List.map_map]
  rfl

theorem scanAllRows_eq (c : ColumnDataCollection α) :
    scanAllRows c = ((allChunksA c).map (readChunkRows c.types.length)).flatten := by
  unfold scanAllRows
  rw [show initScanState = ⟨0, 0, 0, 0⟩ from rfl,
    scanLoop_eq c (totalChunks c + 1) 0 0 0 0 (by rw [chunksFrom_zero, length_allChunksA]; omega),
    chunksFrom_zero]

theorem readChunkRows_length (ncols : Nat) (chunk : ChunkMetaData α) :
    (readChunkRows ncols chunk).length = chunk.count := by
  unfold readChunkRows
  rw [List.length_map, List.length_range]

theorem allChunksA_single (c : ColumnDataCollection α)
    (seg : ColumnDataCollectionSegment α) (h : c.segments = [some seg]) :
    allChunksA c = seg.chunk_data := by
  unfold allChunksA
  rw [h]
  show ([(0 : Nat)].map fun si => segChunks c si).flatten = _
  rw [List.map_cons, List.map_nil, List.flatten_cons, List.flatten_nil, List.append_nil]
  unfold segChunks
  rw [h]
  rfl

theorem collWF_scan (CAP : Nat) [Inhabited α] (c : ColumnDataCollection α)
    (rows : List (List (Option α))) (hwf : CollWF CAP c rows) : scanAllRows c = rows := by
  rw [scanAllRows_eq]
  rcases hwf.2.2 with ⟨hnil, hrows⟩ | ⟨seg, hsegs, hswf, _⟩
  · subst hrows
    unfold allChunksA
    rw [hnil]
    rfl
  · rw [allChunksA_single c seg hsegs]
    exact hswf.2.2

/-- Claim C1: appending any sequence of batches with the collection's schema
and then scanning sequentially yields the same total row count and, row for
row, the same values and nullability (cells as `Option` values: `none` is
NULL) as the concatenation of the inputs, regardless of how the rows were
split across the append calls. Stated for collections of fixed-width scalar
columns (the model's scope); the batch splitting across chunks inside
`append` is arbitrary since batch sizes are arbitrary. -/
theorem claim_C1_append_scan_roundtrip (CAP : Nat) [Inhabited α] (tys : List Nat)
    (batches : List (DataChunk α)) (hcap : 0 < CAP)
    (hty : ∀ b ∈ batches, b.types = tys) :
    ∃ c, appendAll CAP (emptyCollection tys : ColumnDataCollection α) batches
        = Except.ok c ∧
      c.count = (batches.map DataChunk.size).sum ∧
      scanAllRows c = (batches.map DataChunk.rows).flatten := by
  obtain ⟨c, hall, hwf, _⟩ := appendAll_spec CAP tys batches (emptyCollection tys) []
    (emptyCollection_wf CAP tys) rfl hty hcap
  rw [List.nil_append] at hwf
  refine ⟨c, hall, ?_, collWF_scan CAP c _ hwf⟩
  rw [hwf.2.1, List.length_flatten, List.map_map]
  congr 1
  apply List.map_congr_left
  intro b _
  exact rows_length b

/-- Claim C1 witness: two concrete batches (the second with a NULL), capacity
2 so the second append splits across chunks. -/
theorem claim_C1_witness :
    ∃ c, appendAll 2 (emptyCollection [0, 1] : ColumnDataCollection Nat)
        [⟨[0, 1], 2, [⟨id, fun i => i + 10, none⟩, ⟨id, fun i => i + 20, some [maxEntry - 2]⟩]⟩,
         ⟨[0, 1], 3, [⟨id, fun i => i + 30, none⟩, ⟨id, fun i => i + 40, none⟩]⟩]
        = Except.ok c ∧
      c.count = ([⟨[0, 1], 2, [⟨id, fun i => i + 10, none⟩,
          ⟨id, fun i => i + 20, some [maxEntry - 2]⟩]⟩,
        (⟨[0, 1], 3, [⟨id, fun i => i + 30, none⟩, ⟨id, fun i => i + 40, none⟩]⟩ :
          DataChunk Nat)].map DataChunk.size).sum ∧
      scanAllRows c = ([⟨[0, 1], 2, [⟨id, fun i => i + 10, none⟩,
          ⟨id, fun i => i + 20, some [maxEntry - 2]⟩]⟩,
        (⟨[0, 1], 3, [⟨id, fun i => i + 30, none⟩, ⟨id, fun i => i + 40, none⟩]⟩ :
          DataChunk Nat)].map DataChunk.rows).flatten :=
  claim_C1_append_scan_roundtrip 2 [0, 1] _ (by omega)
    (by
      intro b hb
      simp only [List.mem_cons, List.not_mem_nil, or_false] at hb
      rcases hb with rfl | rfl <;> rfl)

/-- Claim C6: after any append sequence every chunk's row count is at most
the capacity, the chunk counts of each segment sum to the segment's count,
and the segment counts sum to the collection's count. -/
theorem claim_C6_chunk_capacity_invariant (CAP : Nat) [Inhabited α] (tys : List Nat)
    (batches : List (DataChunk α)) (hcap : 0 < CAP)
    (hty : ∀ b ∈ batches, b.types = tys) :
    ∃ c, appendAll CAP (emptyCollection tys : ColumnDataCollection α) batches
        = Except.ok c ∧
      (∀ s ∈ c.segments, ∃ seg, s = some seg ∧
        (∀ ch ∈ seg.chunk_data, ch.count ≤ CAP) ∧
        (seg.chunk_data.map ChunkMetaData.count).sum = seg.count) ∧
      (c.segments.map fun s => ((s.getD default).count)).sum = c.count := by
  obtain ⟨c, hall, hwf, _⟩ := appendAll_spec CAP tys batches (emptyCollection tys) []
    (emptyCollection_wf CAP tys) rfl hty hcap
  rw [List.nil_append] at hwf
  refine ⟨c, hall, ?_, ?_⟩
  · intro s hs
    rcases hwf.2.2 with ⟨hnil, _⟩ | ⟨seg, hsegs, hswf, hscnt⟩
    · rw [hnil] at hs
      exact absurd hs (List.not_mem_nil s)
    · rw [hsegs] at hs
      rw [List.mem_singleton.1 hs]
      refine ⟨seg, rfl, ?_, ?_⟩
      · intro ch hch
        exact (hswf.2.1 ch hch).2.1
      · rw [hscnt, ← hswf.2.2, List.length_flatten, List.map_map]
        congr 1
        apply List.map_congr_left
        intro ch _
        exact (readChunkRows_length _ ch).symm
  · rcases hwf.2.2 with ⟨hnil, hrows⟩ | ⟨seg, hsegs, _, hscnt⟩
    · rw [hnil, hwf.2.1, hrows]
      rfl
    · rw [hsegs, hwf.2.1, ← hscnt]
      simp

/-- Claim C6 witness. -/
theorem claim_C6_witness :
    ∃ c, appendAll 2 (emptyCollection [0] : ColumnDataCollection Nat)
        [⟨[0], 3, [⟨id, fun i => i + 5, none⟩]⟩] = Except.ok c ∧
      (∀ s ∈ c.segments, ∃ seg, s = some seg ∧
        (∀ ch ∈ seg.chunk_data, ch.count ≤ 2) ∧
        (seg.chunk_data.map ChunkMetaData.count).sum = seg.count) ∧
      (c.segments.map fun s => ((s.getD default).count)).sum = c.count :=
  claim_C6_chunk_capacity_invariant 2 [0] _ (by omega) (by simp)

/-! ## Combine -/

theorem segChunks_append_left (x y : ColumnDataCollection α) (z : ColumnDataCollection α)
    (hz : z.segments = x.segments ++ y.segments) (si : Nat) (h : si < x.segments.length) :
    segChunks z si = segChunks x si := by
  unfold segChunks
  rw [hz, List.getD_append _ _ _ _ h]

theorem segChunks_append_right (x y : ColumnDataCollection α) (z : ColumnDataCollection α)
    (hz : z.segments = x.segments ++ y.segments) (k : Nat) :
    segChunks z (x.segments.length + k) = segChunks y k := by
  unfold segChunks
  rw [hz, List.getD_append_right _ _ _ _ (by omega),
    show x.segments.length + k - x.segments.length = k from by omega]

theorem allChunksA_append (x y z : ColumnDataCollection α)
    (hz : z.segments = x.segments ++ y.segments) :
    allChunksA z = allChunksA x ++ allChunksA y := by
  unfold allChunksA
  rw [hz, List.length_append, List.range_add, List.map_append, List.flatten_append]
  congr 1
  · congr 1
    apply List.map_congr_left
    intro si hsi
    exact segChunks_append_left x y z hz si (List.mem_range.1 hsi)
  · rw [List.map_map]
    congr 1
    apply List.map_congr_left
    intro k _
    simp only [Function.comp_apply]
    exact segChunks_append_right x y z hz k

/-- Claim C2 (amended), proved: combining X with Y of identical schema yields
a collection with `n1 + n2` rows whose sequential scan reads back X's rows
followed by Y's rows; mismatching schemas fault. After the combine, Y's
segment pointers are all moved-from (null) — but Y's segment list keeps its
length and Y still reports its old row count (the source neither clears
`other.segments` nor resets `other.count`). -/
theorem claim_C2_amended (x y : ColumnDataCollection α) :
    (x.types = y.types →
      ∃ z y', x.combine y = Except.ok (z, y') ∧
        z.count = x.count + y.count ∧
        z.types = x.types ∧
        scanAllRows z = scanAllRows x ++ scanAllRows y ∧
        y'.count = y.count ∧
        y'.segments.length = y.segments.length ∧
        (∀ s ∈ y'.segments, s = none)) ∧
    (x.types ≠ y.types →
      x.combine y = Except.error (DuckDBError.internalException
        "Attempting to combine ColumnDataCollections with mismatching types")) := by
  constructor
  · intro hty
    refine ⟨{ x with count := x.count + y.count, segments := x.segments ++ y.segments },
      { y with segments := y.segments.map fun _ => none }, ?_, rfl, rfl, ?_, rfl,
      by simp, ?_⟩
    · unfold ColumnDataCollection.combine
      rw [if_neg (by simp [hty])]
    · rw [scanAllRows_eq, scanAllRows_eq, scanAllRows_eq,
        allChunksA_append x y _ rfl, List.map_append, List.flatten_append]
      have ht : ({ x with
          count := x.count + y.count
          segments := x.segments ++ y.segments } :
            ColumnDataCollection α).types = x.types := rfl
      congr 2
      rw [ht, hty]
    · intro s hs
      rcases List.mem_map.1 hs with ⟨_, _, rfl⟩
      rfl
  · intro hty
    unfold ColumnDataCollection.combine
    rw [if_pos hty]

/-- Claim C2 witness: two one-row collections (built by concrete appends)
with equal schemas combine into a two-row collection scanning X's row then
Y's row; a schema mismatch faults. -/
theorem claim_C2_witness :
    (∃ z y', ColumnDataCollection.combine
        (⟨[0], 1, [some ⟨[⟨1, [⟨1, [some 3], [maxEntry]⟩]⟩], 1⟩], false⟩ :
          ColumnDataCollection Nat)
        ⟨[0], 1, [some ⟨[⟨1, [⟨1, [some 7], [maxEntry]⟩]⟩], 1⟩], false⟩
        = Except.ok (z, y') ∧
      z.count = 1 + 1 ∧ z.types = [0] ∧
      scanAllRows z
        = scanAllRows (⟨[0], 1, [some ⟨[⟨1, [⟨1, [some 3], [maxEntry]⟩]⟩], 1⟩], false⟩ :
            ColumnDataCollection Nat)
          ++ scanAllRows (⟨[0], 1, [some ⟨[⟨1, [⟨1, [some 7], [maxEntry]⟩]⟩], 1⟩], false⟩ :
            ColumnDataCollection Nat) ∧
      y'.count = 1 ∧ y'.segments.length = 1 ∧ (∀ s ∈ y'.segments, s = none)) :=
  (claim_C2_amended
    (⟨[0], 1, [some ⟨[⟨1, [⟨1, [some 3], [maxEntry]⟩]⟩], 1⟩], false⟩ :
      ColumnDataCollection Nat)
    ⟨[0], 1, [some ⟨[⟨1, [⟨1, [some 7], [maxEntry]⟩]⟩], 1⟩], false⟩).1 rfl

/-- Claim C2 counterexample to the claim as stated: after combining two
one-row collections (both reachable by a concrete append), the source
collection still reports 1 row, not 0, and its segment list still has one
(moved-from) entry rather than being empty. -/
theorem claim_C2_counterexample :
    appendAll 2 (emptyCollection [0] : ColumnDataCollection Nat)
        [⟨[0], 1, [⟨id, fun i => i + 3, none⟩]⟩]
      = Except.ok ⟨[0], 1, [some ⟨[⟨1, [⟨1, [some 3], [maxEntry]⟩]⟩], 1⟩], false⟩ ∧
    appendAll 2 (emptyCollection [0] : ColumnDataCollection Nat)
        [⟨[0], 1, [⟨id, fun i => i + 7, none⟩]⟩]
      = Except.ok ⟨[0], 1, [some ⟨[⟨1, [⟨1, [some 7], [maxEntry]⟩]⟩], 1⟩], false⟩ ∧
    ColumnDataCollection.combine
        (⟨[0], 1, [some ⟨[⟨1, [⟨1, [some 3], [maxEntry]⟩]⟩], 1⟩], false⟩ :
          ColumnDataCollection Nat)
        ⟨[0], 1, [some ⟨[⟨1, [⟨1, [some 7], [maxEntry]⟩]⟩], 1⟩], false⟩
      = Except.ok
          (⟨[0], 2, [some ⟨[⟨1, [⟨1, [some 3], [maxEntry]⟩]⟩], 1⟩,
              some ⟨[⟨1, [⟨1, [some 7], [maxEntry]⟩]⟩], 1⟩], false⟩,
           ⟨[0], 1, [none], false⟩) ∧
    (1 : Nat) ≠ 0 ∧ ([none] : List (Option (ColumnDataCollectionSegment Nat))) ≠ [] := by
  refine ⟨?_, ?_, ?_, by omega, by simp⟩ <;> decide

/-! ## Transfer construction, chunk count -/

/-- Claim C7: transfer-style construction marks the source collection
append-closed, and any append attempt on an append-closed collection is
surfaced as a fault (`D_ASSERT(!finished_append)`, the source's fault
mechanism for contract violations) rather than silently succeeding or being
a no-op. -/
theorem claim_C7_use_after_finished (CAP : Nat) [Inhabited α]
    (c d : ColumnDataCollection α) (input : DataChunk α) :
    c.copyConstruct.2.finished_append = true ∧
    c.copyConstruct.2.append CAP input = Except.error DuckDBError.assertionFailure ∧
    (d.finished_append = true →
      d.append CAP input = Except.error DuckDBError.assertionFailure) := by
  refine ⟨rfl, rfl, ?_⟩
  intro hd
  unfold ColumnDataCollection.append
  rw [hd]
  rfl

/-- Claim C7 witness. -/
theorem claim_C7_witness :
    ((emptyCollection [0] : ColumnDataCollection Nat).copyConstruct.2.finished_append
        = true) ∧
    (emptyCollection [0] : ColumnDataCollection Nat).copyConstruct.2.append 2
        ⟨[0], 1, [⟨id, fun i => i, none⟩]⟩
      = Except.error DuckDBError.assertionFailure ∧
    (((emptyCollection [0] : ColumnDataCollection Nat).copyConstruct.2.finished_append
          = true) →
      (emptyCollection [0] : ColumnDataCollection Nat).copyConstruct.2.append 2
          ⟨[0], 1, [⟨id, fun i => i, none⟩]⟩
        = Except.error DuckDBError.assertionFailure) :=
  let w := claim_C7_use_after_finished 2 (emptyCollection [0] : ColumnDataCollection Nat)
    (emptyCollection [0] : ColumnDataCollection Nat).copyConstruct.2
    ⟨[0], 1, [⟨id, fun i => i, none⟩]⟩
  ⟨w.1, w.2.1, w.2.2⟩

/-- Claim C10: `ChunkCount` raises an internal exception for every
collection; it never returns a chunk count. -/
theorem claim_C10_chunk_count_throws (c : ColumnDataCollection α) :
    c.chunkCount = Except.error (DuckDBError.internalException "FIXME: chunk count") := rfl

/-! ## Validity mask claims -/

/-- Claim C3 (code-bug evidence): slicing a standard-size mask by offset 1
reads row 1984 of the result as valid although row 1985 of the input — which
is inside the input's row range — is invalid. The final word of the sliced
mask is taken from the freshly initialized all-ones array instead of the
input's shifted last word (and for offsets of 64 or more the source's
`offset - entire_units % BITS_PER_VALUE` miscomputes the sub-word shift), so
`slice(A, k)` read at `i` differs from `A` read at `i + k`. -/
theorem claim_C3_slice_bug :
    vmaskRowIsValid
        (vmaskSlice (some (List.replicate 31 maxEntry ++ [maxEntry - 2])) 1) 1984 = true ∧
    vmaskRowIsValid (some (List.replicate 31 maxEntry ++ [maxEntry - 2])) 1985 = false ∧
    1984 + 1 < STANDARD_VECTOR_SIZE ∧
    vmaskRowIsValid
        (vmaskSlice (some (List.replicate 31 maxEntry ++ [maxEntry - 2])) 1) 1984
      ≠ vmaskRowIsValid (some (List.replicate 31 maxEntry ++ [maxEntry - 2])) 1985 := by
  refine ⟨by decide, by decide, by decide, by decide⟩

/-- Claim C8 counterexample to the claim as stated: resizing a mask whose bit
5 is clear from `old_size = 3` to `new_size = 10` leaves row 5 — a newly
added row (`3 ≤ 5 < 10`) — invalid, because the resize copies whole 64-bit
entries and only fills entries beyond `EntryCount(old_size)` with ones. -/
theorem claim_C8_counterexample :
    vmaskResize (some [maxEntry - 32]) 3 10 ≠ (none : VMask) ∧
    (3 : Nat) ≤ 5 ∧ (5 : Nat) < 10 ∧
    vmaskRowIsValid (vmaskResize (some [maxEntry - 32]) 3 10) 5 = false := by
  refine ⟨by decide, by omega, by omega, by decide⟩

/-- Claim C8 (amended), proved: for a materialized mask and
`old_size ≤ new_size`, `resize` preserves every row of the copied whole
entries (in particular every row below `old_size`), and makes every row from
the old entry boundary `64 * EntryCount(old_size)` up to `new_size` valid;
it is a no-op in the all-valid sentinel state. -/
theorem claim_C8_resize_amended (m : VMask) (old_size new_size : Nat)
    (h : old_size ≤ new_size) :
    (m = none → vmaskResize m old_size new_size = none) ∧
    (∀ ws : List Nat, m = some ws →
      (∀ i < 64 * entryCount old_size,
        vmaskRowIsValid (vmaskResize m old_size new_size) i = vmaskRowIsValid m i) ∧
      (∀ i, 64 * entryCount old_size ≤ i → i < new_size →
        vmaskRowIsValid (vmaskResize m old_size new_size) i = true)) := by
  constructor
  · intro hm
    rw [hm]
    rfl
  · intro ws hm
    subst hm
    have hec : entryCount old_size ≤ entryCount new_size := by
      unfold entryCount
      omega
    constructor
    · intro i hi
      show wordsBit (resizeWords ws old_size new_size) i = wordsBit ws i
      unfold wordsBit resizeWords
      rw [getD_range_map, if_pos (show i / 64 < entryCount new_size by omega),
        if_pos (show i / 64 < entryCount old_size by omega)]
    · intro i hi1 hi2
      show wordsBit (resizeWords ws old_size new_size) i = true
      unfold wordsBit resizeWords
      have hlt : i / 64 < entryCount new_size := by
        unfold entryCount
        omega
      rw [getD_range_map, if_pos hlt, if_neg (show ¬i / 64 < entryCount old_size by omega),
        testBit_maxEntry]
      simp [Nat.mod_lt i (show 0 < 64 by omega)]

/-- Claim C8 witness: rows below the old size are preserved, rows past the
old entry boundary become valid. -/
theorem claim_C8_witness :
    vmaskRowIsValid (vmaskResize (some [5]) 3 130) 100 = true :=
  ((claim_C8_resize_amended (some [5]) 3 130 (by omega)).2 [5] rfl).2 100 (by decide)
    (by decide)

/-- Claim C4: `Combine` computes, over the first `count` rows, the bitwise
AND of the two masks; it is a no-op when the other mask is all-valid or when
both masks reference the identical underlying bit array; an all-valid mask
adopts the other's array by reference without allocating; only the general
case appends one freshly allocated array to the store; and no pre-existing
array in the store is ever mutated (count 0 is covered: the row-wise
property is vacuous and the fast paths still hold). -/
theorem refRowIsValid_some (st : MaskStore) (m : RefValidityMask) (j : Nat)
    (h : m.refIdx = some j) (i : Nat) :
    refRowIsValid st m i = wordsBit (m.getData st) i := by
  unfold refRowIsValid
  rw [h]

theorem claim_C4_combine (st : MaskStore) (a b : RefValidityMask) (count : Nat) :
    (∀ i < count,
      refRowIsValid (refCombine st a b count).2 (refCombine st a b count).1 i
        = (refRowIsValid st a i && refRowIsValid st b i)) ∧
    (b.refIdx = none → refCombine st a b count = (a, st)) ∧
    (a.refIdx = none → b.refIdx ≠ none →
      (refCombine st a b count).1.refIdx = b.refIdx ∧ (refCombine st a b count).2 = st) ∧
    (a.refIdx = b.refIdx → refCombine st a b count = (a, st)) ∧
    ((refCombine st a b count).2.arrays.take st.arrays.length = st.arrays) ∧
    (a.refIdx ≠ none → b.refIdx ≠ none → a.refIdx ≠ b.refIdx →
      (refCombine st a b count).2.arrays.length = st.arrays.length + 1) := by
  unfold refCombine
  by_cases hb : b.refIdx = none
  · rw [if_pos hb]
    refine ⟨?_, fun _ => rfl, fun _ hbn => absurd hb hbn, fun _ => rfl,
      by exact List.take_length st.arrays, fun _ hbn => absurd hb hbn⟩
    intro i _
    rw [show refRowIsValid st b i = true from by unfold refRowIsValid; rw [hb],
      Bool.and_true]
  · rw [if_neg hb]
    by_cases ha : a.refIdx = none
    · rw [if_pos ha]
      refine ⟨?_, fun hbn => absurd hbn hb, fun _ _ => ⟨rfl, rfl⟩,
        fun he => absurd (he ▸ ha) hb, by exact List.take_length st.arrays,
        fun han => absurd ha han⟩
      intro i _
      rw [show refRowIsValid st a i = true from by unfold refRowIsValid; rw [ha],
        Bool.true_and]
    · rw [if_neg ha]
      by_cases hab : a.refIdx = b.refIdx
      · rw [if_pos hab]
        refine ⟨?_, fun hbn => absurd hbn hb, fun han => absurd han ha, fun _ => rfl,
          by exact List.take_length st.arrays, fun _ _ habn => absurd hab habn⟩
        intro i _
        rcases hav : a.refIdx with _ | ja
        · exact absurd hav ha
        · rw [refRowIsValid_some st a ja hav i, refRowIsValid_some st b ja (hab ▸ hav) i]
          have hba : b.getData st = a.getData st := by
            unfold RefValidityMask.getData
            rw [← hab]
          rw [hba, Bool.and_self]
      · rw [if_neg hab]
        refine ⟨?_, fun hbn => absurd hbn hb, fun han => absurd han ha,
          fun he => absurd he hab, by exact List.take_left st.arrays _, fun _ _ _ => by
            show (st.arrays ++ [(List.range (entryCount count)).map fun j =>
              (a.getData st).getD j 0 &&& (b.getData st).getD j 0]).length
              = st.arrays.length + 1
            rw [List.length_append]
            rfl⟩
        intro i hi
        have hidx : i / 64 < entryCount count := by
          unfold entryCount
          omega
        rcases hav : a.refIdx with _ | ja
        · exact absurd hav ha
        rcases hbv : b.refIdx with _ | jb
        · exact absurd hbv hb
        rw [refRowIsValid_some st a ja hav i, refRowIsValid_some st b jb hbv i]
        show wordsBit ((st.arrays ++ [(List.range (entryCount count)).map fun j =>
            (a.getData st).getD j 0 &&& (b.getData st).getD j 0]).getD
              st.arrays.length []) i = _
        rw [List.getD_append_right _ _ _ _ (Nat.le_refl _), Nat.sub_self]
        show Nat.testBit (((List.range (entryCount count)).map fun j =>
            (a.getData st).getD j 0 &&& (b.getData st).getD j 0).getD (i / 64) 0) (i % 64)
          = _
        rw [getD_range_map, if_pos hidx, Nat.testBit_land]
        rfl

/-- Claim C4 witness: general path at a concrete store, plus a fast path. -/
theorem claim_C4_witness :
    refRowIsValid (refCombine ⟨[[6], [5]]⟩ ⟨some 0⟩ ⟨some 1⟩ 3).2
        (refCombine ⟨[[6], [5]]⟩ ⟨some 0⟩ ⟨some 1⟩ 3).1 2
      = (refRowIsValid ⟨[[6], [5]]⟩ ⟨some 0⟩ 2 && refRowIsValid ⟨[[6], [5]]⟩ ⟨some 1⟩ 2) :=
  (claim_C4_combine ⟨[[6], [5]]⟩ ⟨some 0⟩ ⟨some 1⟩ 3).1 2 (by omega)

/-! ## Parallel scan -/

theorem scanLoop_none (c : ColumnDataCollection α) (s : ColumnDataScanState)
    (h : c.scan s = none) : ∀ fuel, scanLoop c s fuel = []
  | 0 => rfl
  | fuel + 1 => by
    unfold scanLoop
    rw [h]

theorem runParallel_snd (c : ColumnDataCollection α) (n : Nat) :
    ∀ (sched : List (Fin n)) (s : ColumnDataScanState),
      (runParallel c n sched s).map (fun p => p.2) = scanLoop c s sched.length
  | [], s => rfl
  | w :: ws, s => by
    rw [List.length_cons]
    unfold runParallel scanLoop
    rcases h : c.scan s with _ | ⟨rows, s'⟩
    · show (runParallel c n ws s).map (fun p => p.2) = []
      rw [runParallel_snd c n ws s, scanLoop_none c s h]
    · show rows :: (runParallel c n ws s').map (fun p => p.2)
          = rows :: scanLoop c s' ws.length
      rw [runParallel_snd c n ws s']

theorem flatten_map_flatten (l : List (List (List γ))) :
    (l.map List.flatten).flatten = l.flatten.flatten := by
  induction l with
  | nil => rfl
  | cons a l ih =>
    rw [List.map_cons, List.flatten_cons, List.flatten_cons, List.flatten_append, ih]

theorem perm_insert_filtered {n : Nat} (x : β) (F : Fin n → List β) (w0 : Fin n) :
    ∀ (ws : List (Fin n)), ws.Nodup → w0 ∈ ws →
      ((ws.map fun w => if w0 = w then x :: F w else F w).flatten).Perm
        (x :: (ws.map F).flatten)
  | [], _, hmem => absurd hmem (List.not_mem_nil w0)
  | w :: ws, hnd, hmem => by
    rw [List.map_cons, List.flatten_cons, List.map_cons, List.flatten_cons]
    by_cases hw : w0 = w
    · rw [if_pos hw]
      have hnin : w0 ∉ ws := by
        rw [hw]
        exact (List.nodup_cons.1 hnd).1
      have hcong : ws.map (fun w => if w0 = w then x :: F w else F w) = ws.map F := by
        apply List.map_congr_left
        intro u hu
        rw [if_neg fun he => hnin (by rw [he]; exact hu)]
      rw [hcong]
      rfl
    · rw [if_neg hw]
      have hmem' : w0 ∈ ws := by
        rcases List.mem_cons.1 hmem with he | hm
        · exact absurd he hw
        · exact hm
      have ih := perm_insert_filtered x F w0 ws (List.nodup_cons.1 hnd).2 hmem'
      exact (List.Perm.append_left (F w) ih).trans List.perm_middle

theorem perm_partition_by_worker {n : Nat} :
    ∀ (l : List (Fin n × List (List γ))),
      (((List.finRange n).map fun w =>
          (l.filter fun p => p.1 = w).map fun p => p.2).flatten).Perm
        (l.map fun p => p.2)
  | [] => by simp
  | (w0, x) :: l => by
    have hstep : (List.finRange n).map (fun w =>
        (((w0, x) :: l).filter fun p => p.1 = w).map fun p => p.2)
        = (List.finRange n).map (fun w =>
            if w0 = w then x :: ((l.filter fun p => p.1 = w).map fun p => p.2)
            else (l.filter fun p => p.1 = w).map fun p => p.2) := by
      apply List.map_congr_left
      intro w _
      rw [List.filter_cons]
      by_cases hw : w0 = w
      · rw [if_pos hw, if_pos (by simpa using hw), List.map_cons]
      · rw [if_neg hw, if_neg (by simpa using hw)]
    rw [hstep, List.map_cons]
    exact (perm_insert_filtered x _ w0 (List.finRange n) (List.nodup_finRange n)
        (List.mem_finRange w0)).trans
      ((perm_partition_by_worker l).cons x)

/-- Claim C9: in the parallel scan model — where each worker call performs
the locked `NextScanIndex` hand-out atomically and decodes its assigned chunk
outside the lock (the source holds the lock exactly around `NextScanIndex`,
lines 403-408, never during `ReadChunk`) — any schedule of worker calls long
enough to exhaust the shared cursor makes the union of the rows produced
across all workers, each worker's output taken in the order it received its
chunks, a permutation of the full sequential row set: every row exactly
once, no duplicates, no omissions. -/
theorem claim_C9_parallel_scan_coverage (c : ColumnDataCollection α) (n : Nat)
    (schedule : List (Fin n)) (h : totalChunks c ≤ schedule.length) :
    (((List.finRange n).map fun w =>
        (workerBatches (runParallel c n schedule initScanState) w).flatten).flatten).Perm
      (scanAllRows c) := by
  have hbatches := perm_partition_by_worker (runParallel c n schedule initScanState)
  have hsnd := runParallel_snd c n schedule initScanState
  have hfull : scanLoop c initScanState schedule.length
      = (chunksFrom c 0 0).map (readChunkRows c.types.length) := by
    rw [show initScanState = ⟨0, 0, 0, 0⟩ from rfl]
    exact scanLoop_eq c schedule.length 0 0 0 0
      (by rw [chunksFrom_zero, length_allChunksA]; omega)
  have hall : scanLoop c initScanState schedule.length
      = scanLoop c initScanState (totalChunks c + 1) := by
    rw [hfull, show initScanState = ⟨0, 0, 0, 0⟩ from rfl]
    rw [scanLoop_eq c (totalChunks c + 1) 0 0 0 0
      (by rw [chunksFrom_zero, length_allChunksA]; omega)]
  have hflat : ((List.finRange n).map fun w =>
      (workerBatches (runParallel c n schedule initScanState) w).flatten).flatten
      = (((List.finRange n).map fun w =>
          workerBatches (runParallel c n schedule initScanState) w).flatten).flatten := by
    rw [← flatten_map_flatten, List.map_map]
    rfl
  rw [hflat]
  unfold scanAllRows
  rw [← hall, ← hsnd]
  exact hbatches.flatten

/-- Claim C9 witness: two workers draining a one-chunk collection. -/
theorem claim_C9_witness :
    (((List.finRange 2).map fun w =>
        (workerBatches (runParallel
          (⟨[0], 1, [some ⟨[⟨1, [⟨1, [some 3], [maxEntry]⟩]⟩], 1⟩], false⟩ :
            ColumnDataCollection Nat) 2 [0, 1] initScanState) w).flatten).flatten).Perm
      (scanAllRows
        (⟨[0], 1, [some ⟨[⟨1, [⟨1, [some 3], [maxEntry]⟩]⟩], 1⟩], false⟩ :
          ColumnDataCollection Nat)) :=
  claim_C9_parallel_scan_coverage
    (⟨[0], 1, [some ⟨[⟨1, [⟨1, [some 3], [maxEntry]⟩]⟩], 1⟩], false⟩ :
      ColumnDataCollection Nat) 2 [0, 1] (by decide)

/-! ## List column: child chain invariants -/

/-- The logical child cells of a window of the flattened child column. -/
def cellRange (child : VectorData α) (off m : Nat) : List (Option α) :=
  (List.range m).map fun i => child.cell (off + i)

theorem cellRange_split (child : VectorData α) (off a b : Nat) :
    cellRange child off (a + b) = cellRange child off a ++ cellRange child (off + a) b := by
  unfold cellRange
  rw [List.range_add, List.map_append, List.map_map]
  congr 1
  apply List.map_congr_left
  intro i _
  simp only [Function.comp_apply]
  congr 1
  omega

theorem tcdc_data_id (CAP : Nat) [Inhabited α] (slot : VectorMetaData α)
    (child : VectorData α) (soff n : Nat) :
    (templatedColumnDataCopy CAP id slot child soff n).data
      = slot.data ++ cellRange child soff n := rfl

theorem slotWF_empty (CAP : Nat) : SlotWF CAP (emptyVectorMeta CAP : VectorMetaData α) :=
  ⟨rfl, by simp [emptyVectorMeta], by simp [emptyVectorMeta]⟩

/-- Well-formedness of a child chain holding exactly `vals`: the flattened
slot data is `vals`, every slot is well formed with its count capped, and
every slot but the last is exactly full. -/
def ChainWF (CAP : Nat) (chain : List (VectorMetaData α)) (vals : List (Option α)) : Prop :=
  (chain.map fun s => s.data).flatten = vals ∧
  (∀ s ∈ chain, SlotWF CAP s ∧ s.count ≤ CAP) ∧
  (∀ k, k + 1 < chain.length → (chain.getD k default).count = CAP)

theorem listChildLoopAux_zero (CAP : Nat) [Inhabited α] (child : VectorData α)
    (total : Nat) (fuel : Nat) (chain : List (VectorMetaData α)) (cls : Nat) :
    listChildLoopAux CAP child total fuel chain 0 cls = (chain, cls) := by
  cases fuel with
  | zero => rfl
  | succ fuel =>
    unfold listChildLoopAux
    rw [if_pos rfl]

theorem chainWF_nil (CAP : Nat) : ChainWF CAP ([] : List (VectorMetaData α)) [] :=
  ⟨rfl, by simp, by simp⟩

theorem listChildLoopAux_spec (CAP : Nat) [Inhabited α] (child : VectorData α)
    (total : Nat) (hcap : 0 < CAP) :
    ∀ (fuel : Nat) (chain : List (VectorMetaData α)) (vals : List (Option α))
      (remaining cls : Nat),
      remaining + chain.length ≤ fuel → remaining ≤ total → ChainWF CAP chain vals →
      ChainWF CAP (listChildLoopAux CAP child total fuel chain remaining cls).1
        (vals ++ cellRange child (total - remaining) remaining) ∧
      (listChildLoopAux CAP child total fuel chain remaining cls).2
        = (if remaining = 0 then cls else cls + vals.length) ∧
      chain.length ≤ (listChildLoopAux CAP child total fuel chain remaining cls).1.length
  | 0, chain, vals, remaining, cls, hf, _, hwf => by
    have hr : remaining = 0 := by omega
    have hc : chain = [] := List.length_eq_zero.1 (by omega)
    subst hr
    subst hc
    have hv : vals = [] := hwf.1.symm
    subst hv
    exact ⟨hwf, rfl, Nat.le_refl _⟩
  | fuel + 1, chain, vals, remaining, cls, hf, ht, hwf => by
    by_cases hr : remaining = 0
    · subst hr
      rw [listChildLoopAux_zero]
      refine ⟨?_, by rw [if_pos rfl], Nat.le_refl _⟩
      show ChainWF CAP chain (vals ++ cellRange child (total - 0) 0)
      rw [show cellRange child (total - 0) 0 = [] from rfl, List.append_nil]
      exact hwf
    · rcases chain with _ | ⟨slot, rest⟩
      · -- empty chain: allocate a fresh slot and fill it
        have hv : vals = [] := hwf.1.symm
        subst hv
        have ha : 0 < min (CAP - 0) remaining := by omega
        have hstep : listChildLoopAux CAP child total (fuel + 1) [] remaining cls
            = (templatedColumnDataCopy CAP id (emptyVectorMeta CAP) child
                  (total - remaining) (min (CAP - 0) remaining)
                :: (listChildLoopAux CAP child total fuel []
                    (remaining - min (CAP - 0) remaining) (cls + 0)).1,
               (listChildLoopAux CAP child total fuel []
                  (remaining - min (CAP - 0) remaining) (cls + 0)).2) := by
          unfold listChildLoopAux
          rw [if_neg hr]
          dsimp only
          rw [if_pos ha]
          simp only [← listChildLoopAux.eq_def]
        have hcopy := templatedColumnDataCopy_spec CAP id (emptyVectorMeta CAP) child
          (total - remaining) (min (CAP - 0) remaining) (slotWF_empty CAP) (by
            show (emptyVectorMeta CAP : VectorMetaData α).count + _ ≤ CAP
            show 0 + _ ≤ CAP
            omega)
        have hih := listChildLoopAux_spec CAP child total hcap fuel [] []
          (remaining - min (CAP - 0) remaining) (cls + 0) (by omega) (by omega)
          (chainWF_nil CAP)
        have hsplit := cellRange_split child (total - remaining) (min (CAP - 0) remaining)
          (remaining - min (CAP - 0) remaining)
        rw [show min (CAP - 0) remaining + (remaining - min (CAP - 0) remaining) = remaining
          from by omega] at hsplit
        rw [show total - remaining + min (CAP - 0) remaining
            = total - (remaining - min (CAP - 0) remaining) from by omega] at hsplit
        rw [hstep]
        refine ⟨⟨?_, ?_, ?_⟩, ?_, by simp⟩
        · show (templatedColumnDataCopy CAP id (emptyVectorMeta CAP) child
              (total - remaining) (min (CAP - 0) remaining)).data
              ++ ((listChildLoopAux CAP child total fuel []
                  (remaining - min (CAP - 0) remaining) (cls + 0)).1.map fun s => s.data).flatten
            = [] ++ cellRange child (total - remaining) remaining
          rw [hih.1.1, tcdc_data_id, List.nil_append, List.nil_append, hsplit]
          show ((emptyVectorMeta CAP : VectorMetaData α).data ++ _) ++ _ = _
          rw [show (emptyVectorMeta CAP : VectorMetaData α).data = [] from rfl,
            List.nil_append]
        · intro s hs
          rcases List.mem_cons.1 hs with rfl | hs
          · refine ⟨hcopy.2.1, ?_⟩
            rw [hcopy.1]
            show 0 + _ ≤ CAP
            omega
          · exact hih.1.2.1 s hs
        · intro k hk
          rcases k with _ | k
          · by_cases hrem0 : remaining - min (CAP - 0) remaining = 0
            · rw [hrem0, listChildLoopAux_zero] at hk
              simp at hk
            · show (templatedColumnDataCopy CAP id (emptyVectorMeta CAP) child
                  (total - remaining) (min (CAP - 0) remaining)).count = CAP
              rw [hcopy.1]
              show 0 + _ = CAP
              omega
          · rw [List.getD_cons_succ]
            exact hih.1.2.2 k (by simpa using hk)
        · rw [if_neg hr, hih.2.1]
          by_cases hrem0 : remaining - min (CAP - 0) remaining = 0 <;> simp [hrem0]
      · -- nonempty chain: visit the head slot
        set amount := min (CAP - slot.count) remaining with hamdef
        have hstep : listChildLoopAux CAP child total (fuel + 1) (slot :: rest) remaining cls
            = ((if 0 < amount then
                  templatedColumnDataCopy CAP id slot child (total - remaining) amount
                else slot)
                :: (listChildLoopAux CAP child total fuel rest (remaining - amount)
                    (cls + slot.count)).1,
               (listChildLoopAux CAP child total fuel rest (remaining - amount)
                  (cls + slot.count)).2) := by
          unfold listChildLoopAux
          rw [if_neg hr]
          simp only [← listChildLoopAux.eq_def]
        have hflat : slot.data ++ (rest.map fun s => s.data).flatten = vals := hwf.1
        have hslot := hwf.2.1 slot (List.mem_cons_self slot rest)
        have hrestwf : ChainWF CAP rest (rest.map fun s => s.data).flatten := by
          refine ⟨rfl, fun s hs => hwf.2.1 s (List.mem_cons_of_mem slot hs), ?_⟩
          intro k hk
          have := hwf.2.2 (k + 1) (by simp only [List.length_cons]; omega)
          rwa [List.getD_cons_succ] at this
        by_cases ha : 0 < amount
        · -- the head slot has room: under the invariant it must be the last slot
          have hrest : rest = [] := by
            rcases hre : rest with _ | ⟨r2, rs⟩
            · rfl
            · exfalso
              have hfull := hwf.2.2 0 (by rw [hre]; simp only [List.length_cons]; omega)
              rw [List.getD_cons_zero] at hfull
              rw [hamdef, hfull] at ha
              omega
          subst hrest
          rw [List.map_nil, List.flatten_nil, List.append_nil] at hflat
          have hcopy := templatedColumnDataCopy_spec CAP id slot child
            (total - remaining) amount hslot.1 (by
              have := hslot.2
              omega)
          have hih := listChildLoopAux_spec CAP child total hcap fuel [] []
            (remaining - amount) (cls + slot.count)
            (by simp only [List.length_cons, List.length_nil] at hf ⊢; omega)
            (by omega) (chainWF_nil CAP)
          have hsplit := cellRange_split child (total - remaining) amount
            (remaining - amount)
          rw [show amount + (remaining - amount) = remaining from by omega] at hsplit
          rw [show total - remaining + amount = total - (remaining - amount)
            from by omega] at hsplit
          rw [hstep, if_pos ha]
          refine ⟨⟨?_, ?_, ?_⟩, ?_, by simp⟩
          · show (templatedColumnDataCopy CAP id slot child (total - remaining) amount).data
                ++ ((listChildLoopAux CAP child total fuel [] (remaining - amount)
                    (cls + slot.count)).1.map fun s => s.data).flatten
              = vals ++ cellRange child (total - remaining) remaining
            rw [hih.1.1, tcdc_data_id, List.nil_append, hsplit, ← hflat,
              List.append_assoc]
          · intro s hs
            rcases List.mem_cons.1 hs with rfl | hs
            · refine ⟨hcopy.2.1, ?_⟩
              rw [hcopy.1]
              have := hslot.2
              omega
            · exact hih.1.2.1 s hs
          · intro k hk
            rcases k with _ | k
            · by_cases hrem0 : remaining - amount = 0
              · rw [hrem0, listChildLoopAux_zero] at hk
                simp at hk
              · show (templatedColumnDataCopy CAP id slot child
                    (total - remaining) amount).count = CAP
                rw [hcopy.1]
                have := hslot.2
                omega
            · rw [List.getD_cons_succ]
              exact hih.1.2.2 k (by simpa using hk)
          · rw [if_neg hr, hih.2.1, ← hflat]
            by_cases hrem0 : remaining - amount = 0 <;> simp [hrem0, hslot.1.1]
        · -- the head slot is full: skip it, counting its rows
          have hfull : slot.count = CAP := by
            have := hslot.2
            omega
          have hih := listChildLoopAux_spec CAP child total hcap fuel rest
            ((rest.map fun s => s.data).flatten) (remaining - amount) (cls + slot.count)
            (by simp only [List.length_cons] at hf; omega) (by omega) hrestwf
          have hamount0 : amount = 0 := by omega
          rw [hstep, if_neg ha]
          rw [hamount0, Nat.sub_zero] at hih ⊢
          refine ⟨⟨?_, ?_, ?_⟩, ?_, ?_⟩
          · show slot.data ++ ((listChildLoopAux CAP child total fuel rest remaining
                (cls + slot.count)).1.map fun s => s.data).flatten
              = vals ++ cellRange child (total - remaining) remaining
            rw [hih.1.1, ← hflat, List.append_assoc]
          · intro s hs
            rcases List.mem_cons.1 hs with rfl | hs
            · exact hslot
            · exact hih.1.2.1 s hs
          · intro k hk
            rcases k with _ | k
            · exact hfull
            · rw [List.getD_cons_succ]
              exact hih.1.2.2 k (by simpa using hk)
          · rw [if_neg hr]
            have h2 := hih.2.1
            rw [if_neg hr] at h2
            rw [h2, ← hflat, List.length_append]
            have hlen : slot.data.length = slot.count := hslot.1.1
            omega
          · show rest.length + 1 ≤ _
            have := hih.2.2
            simp only [List.length_cons]
            omega

/-! ## List-column invariants and bookkeeping lemmas -/

/-- Well-formedness of one list-column chunk against its abstract content
`L` (the stored list values, in row order): the row count matches, the entry
slot is a well-formed vector slot of that count, the child chain stores
exactly `L.flatten`, and every written entry records its list's length
together with (for nonempty lists) the start offset of that list's run in
the flattened child storage. Zero-length entries may record a stale offset:
when a batch carries only empty lists the child walk runs with zero
remaining values and reports `current_list_size = 0`. -/
def ListChunkWF (CAP : Nat) (chunk : ListChunkMetaData α)
    (L : List (List (Option α))) : Prop :=
  chunk.count = L.length ∧ L.length ≤ CAP ∧
  SlotWF CAP chunk.root.meta ∧ chunk.root.meta.count = L.length ∧
  ChainWF CAP chunk.root.chain L.flatten ∧
  ∀ r, r < L.length → ∃ off,
    chunk.root.meta.data.getD r none = some (off, (L.getD r []).length) ∧
    (0 < (L.getD r []).length → off = (L.take r).flatten.length)

/-- Well-formedness of a whole list collection against per-chunk abstract
contents (`pairs` lists each chunk with its stored lists): at most one
segment whose chunks are the pairs' chunks, every chunk well-formed, every
chunk but the last filled to capacity, and the collection count is the total
number of stored lists. -/
def ListCollWF (CAP : Nat) (c : ListCollection α)
    (pairs : List (ListChunkMetaData α × List (List (Option α)))) : Prop :=
  ((c.segments = [] ∧ pairs = []) ∨
   (∃ seg, c.segments = [seg] ∧ pairs ≠ [] ∧
      seg.chunk_data = pairs.map Prod.fst)) ∧
  (∀ p ∈ pairs, ListChunkWF CAP p.1 p.2) ∧
  (∀ k, k + 1 < pairs.length → ((pairs.getD k default).2).length = CAP) ∧
  c.count = (pairs.map fun p => p.2.length).sum

/-- The no-straddle condition on a sequence of batch row counts: starting
from `tot` resident rows, each batch fits inside the open capacity of the
current last chunk (or a fresh chunk when the last is exactly full), so no
append call is split across two chunks. -/
def noStraddleFrom (CAP : Nat) : Nat → List Nat → Bool
  | _, [] => true
  | tot, s :: rest => decide (tot % CAP + s ≤ CAP) && noStraddleFrom CAP (tot + s) rest

theorem range_map_getD_eq_take (d : β) :
    ∀ (r : Nat) (L : List β), r ≤ L.length →
      ((List.range r).map fun i => L.getD i d) = L.take r
  | 0, L, _ => by simp
  | r + 1, L, h => by
    rw [List.range_succ, List.map_append, range_map_getD_eq_take d r L (by omega),
      List.take_succ, List.map_singleton, List.getD_eq_getElem?_getD,
      List.getElem?_eq_getElem (by omega : r < L.length)]
    rfl

theorem getD_map_general (h : β → γ) (l : List β) (k : Nat) (d : β) :
    (l.map h).getD k (h d) = h (l.getD k d) := by
  rcases Nat.lt_or_ge k l.length with hk | hk
  · rw [List.getD_eq_getElem?_getD, List.getD_eq_getElem?_getD, List.getElem?_map,
      List.getElem?_eq_getElem hk]
    rfl
  · rw [List.getD_eq_getElem?_getD, List.getD_eq_getElem?_getD, List.getElem?_map,
      List.getElem?_eq_none hk]
    rfl

theorem getLastD_map_general (h : β → γ) :
    ∀ (l : List β) (d : β), (l.map h).getLastD (h d) = h (l.getLastD d)
  | [], _ => rfl
  | x :: xs, d => by
    rw [List.map_cons, List.getLastD_cons, List.getLastD_cons,
      getLastD_map_general h xs x]

theorem getD_default_irrel (l : List β) (k : Nat) (hk : k < l.length) (d d2 : β) :
    l.getD k d = l.getD k d2 := by
  rw [List.getD_eq_getElem?_getD, List.getD_eq_getElem?_getD,
    List.getElem?_eq_getElem hk]
  rfl

theorem getLastD_default_irrel :
    ∀ (l : List β), l ≠ [] → ∀ d d2, l.getLastD d = l.getLastD d2
  | [x], _ => fun _ _ => rfl
  | x :: y :: xs, _ => fun d d2 => by
    rw [List.getLastD_cons]
    conv_rhs => rw [List.getLastD_cons]

theorem getD_length_sub_one :
    ∀ (l : List β), l ≠ [] → ∀ d, l.getD (l.length - 1) d = l.getLastD d
  | [x], _ => fun _ => rfl
  | x :: y :: xs, _ => fun d => by
    rw [List.getLastD_cons, ← getD_length_sub_one (y :: xs) (by simp) x]
    show (x :: y :: xs).getD (xs.length + 1) d = (y :: xs).getD ((y :: xs).length - 1) x
    rw [List.getD_cons_succ]
    rw [show (y :: xs).length - 1 = xs.length from by simp]
    exact getD_default_irrel _ _ (by simp) d x

theorem length_updateLast (f : β → β) :
    ∀ (l : List β), (updateLast f l).length = l.length
  | [] => rfl
  | [x] => rfl
  | x :: y :: xs => by
    show (x :: updateLast f (y :: xs)).length = _
    rw [List.length_cons, List.length_cons, length_updateLast f (y :: xs)]

theorem getD_updateLast_lt (f : β → β) (d : β) :
    ∀ (l : List β) (k : Nat), k + 1 < l.length → (updateLast f l).getD k d = l.getD k d
  | [x], k, h => by simp at h
  | x :: y :: xs, 0, _ => rfl
  | x :: y :: xs, k + 1, h => by
    show (x :: updateLast f (y :: xs)).getD (k + 1) d = _
    rw [List.getD_cons_succ, List.getD_cons_succ]
    exact getD_updateLast_lt f d (y :: xs) k (by simp only [List.length_cons] at h ⊢; omega)

theorem map_updateLast (g : β → β) (h : β → γ) (h2 : γ → γ)
    (hc : ∀ x, h (g x) = h2 (h x)) :
    ∀ (l : List β), (updateLast g l).map h = updateLast h2 (l.map h)
  | [] => rfl
  | [x] => by simp [updateLast, hc]
  | x :: y :: xs => by
    show (x :: updateLast g (y :: xs)).map h = _
    rw [List.map_cons, List.map_cons, map_updateLast g h h2 hc (y :: xs)]
    rfl

theorem updateLast_concat (f : β → β) (x : β) :
    ∀ (l : List β), updateLast f (l ++ [x]) = l ++ [f x]
  | [] => rfl
  | y :: ys => by
    rcases ys with _ | ⟨z, zs⟩
    · rfl
    · show y :: updateLast f ((z :: zs) ++ [x]) = _
      rw [updateLast_concat f x (z :: zs)]
      rfl

theorem sum_of_full (CAP : Nat) :
    ∀ (cs : List Nat), cs ≠ [] → (∀ k, k + 1 < cs.length → cs.getD k 0 = CAP) →
      cs.sum = CAP * (cs.length - 1) + cs.getLastD 0
  | [x], _, _ => by simp
  | x :: y :: ys, _, hfull => by
    have hx : x = CAP := hfull 0 (by simp only [List.length_cons]; omega)
    have ih := sum_of_full CAP (y :: ys) (by simp) (fun k hk => by
      have := hfull (k + 1) (by simp only [List.length_cons] at hk ⊢; omega)
      rwa [List.getD_cons_succ] at this)
    rw [List.sum_cons, ih, hx]
    rw [show (CAP :: y :: ys).getLastD 0 = (y :: ys).getLastD 0 from by
      rw [List.getLastD_cons]
      exact getLastD_default_irrel (y :: ys) (by simp) CAP 0]
    simp only [List.length_cons, Nat.add_sub_cancel]
    rw [Nat.mul_add, Nat.mul_one]
    omega

theorem getD_le_sum : ∀ (lens : List Nat) (r : Nat), lens.getD r 0 ≤ lens.sum
  | [], r => by simp
  | l :: ls, 0 => by
    rw [List.getD_cons_zero, List.sum_cons]
    omega
  | l :: ls, r + 1 => by
    rw [List.getD_cons_succ, List.sum_cons]
    have := getD_le_sum ls r
    omega

theorem flatten_drop_take (L : List (List β)) (r : Nat) (hr : r < L.length) :
    (L.flatten.drop (L.take r).flatten.length).take (L.getD r []).length
      = L.getD r [] := by
  have h3 : L.getD r [] = L[r] := by
    rw [List.getD_eq_getElem?_getD, List.getElem?_eq_getElem hr]
    rfl
  have h2 : L.drop r = L.getD r [] :: L.drop (r + 1) := by
    rw [h3]
    exact List.drop_eq_getElem_cons hr
  have h1 : L.flatten = (L.take r).flatten ++ (L.drop r).flatten := by
    rw [← List.flatten_append, List.take_append_drop]
  rw [h1, List.drop_left, h2, List.flatten_cons, List.take_left]

theorem flatten_tiled : ∀ (lens : List Nat) (f : Nat → β),
    ((List.range lens.length).map fun r =>
        (List.range (lens.getD r 0)).map fun j => f (partialSum lens r + j)).flatten
      = (List.range lens.sum).map f
  | [], _ => rfl
  | l :: ls, f => by
    have ih := flatten_tiled ls (fun m => f (l + m))
    rw [List.length_cons, List.range_succ_eq_map, List.map_cons, List.flatten_cons,
      List.map_map, List.sum_cons, List.range_add, List.map_append, List.map_map]
    congr 1
    · apply List.map_congr_left
      intro j _
      show f (partialSum (l :: ls) 0 + j) = f j
      rw [show partialSum (l :: ls) 0 = 0 from rfl, Nat.zero_add]
    · rw [show (f ∘ fun x => l + x) = (fun m => f (l + m)) from rfl, ← ih]
      congr 1
      apply List.map_congr_left
      intro r _
      simp only [Function.comp_apply]
      apply List.map_congr_left
      intro j _
      congr 1
      show partialSum (l :: ls) (r + 1) + j = l + (partialSum ls r + j)
      show (l :: ls.take r).sum + j = _
      rw [List.sum_cons]
      show l + (ls.take r).sum + j = l + ((ls.take r).sum + j)
      omega

theorem cellRange_zero [Inhabited α] (child : VectorData α) (m : Nat) :
    cellRange child 0 m = (List.range m).map child.cell := by
  unfold cellRange
  apply List.map_congr_left
  intro i _
  rw [Nat.zero_add]

theorem batchLists_flatten [Inhabited α] (b : ListDataChunk α) (lens : List Nat) :
    (batchLists b lens).flatten = cellRange b.child 0 lens.sum := by
  rw [cellRange_zero]
  exact flatten_tiled lens b.child.cell

theorem length_batchLists (b : ListDataChunk α) (lens : List Nat) :
    (batchLists b lens).length = lens.length := by
  unfold batchLists
  rw [List.length_map, List.length_range]

theorem getD_batchLists (b : ListDataChunk α) (lens : List Nat) (r : Nat)
    (hr : r < lens.length) :
    (batchLists b lens).getD r []
      = (List.range (lens.getD r 0)).map fun j => b.child.cell (partialSum lens r + j) := by
  unfold batchLists
  rw [getD_range_map]
  rw [if_pos hr]

theorem batchLists_map_length (b : ListDataChunk α) (lens : List Nat) :
    (batchLists b lens).map List.length = lens := by
  unfold batchLists
  rw [List.map_map]
  have : ∀ r ∈ List.range lens.length,
      (List.length ∘ fun r => (List.range (lens.getD r 0)).map fun j =>
        b.child.cell (partialSum lens r + j)) r = lens.getD r 0 := by
    intro r _
    simp only [Function.comp_apply, List.length_map, List.length_range]
  rw [List.map_congr_left this, range_map_getD_eq_take 0 lens.length lens (Nat.le_refl _),
    List.take_length]

theorem take_flatten_length (A : List (List β)) (r : Nat) :
    ((A.take r).flatten).length = ((A.map List.length).take r).sum := by
  rw [List.length_flatten, List.map_take]

theorem batchLists_take_flatten_length (b : ListDataChunk α) (lens : List Nat) (r : Nat) :
    (((batchLists b lens).take r).flatten).length = partialSum lens r := by
  rw [take_flatten_length, batchLists_map_length]
  rfl

theorem wlc_count (CAP : Nat) [Inhabited α] (b : ListDataChunk α)
    (off amt : Nat) (chunk : ListChunkMetaData α) :
    (writeListChunk CAP b off amt chunk).count = chunk.count + amt := rfl

theorem wlc_root (CAP : Nat) [Inhabited α] (b : ListDataChunk α)
    (off amt : Nat) (chunk : ListChunkMetaData α) :
    (writeListChunk CAP b off amt chunk).root
      = columnDataCopyList CAP chunk.root b.entries b.child b.childTotal off amt := rfl

theorem cdcl_chain (CAP : Nat) [Inhabited α] (root : ListVectorMeta α)
    (source : VectorData (Nat × Nat)) (child : VectorData α) (childTotal soff n : Nat) :
    (columnDataCopyList CAP root source child childTotal soff n).chain
      = (listChildLoop CAP child childTotal
          (if root.chain.isEmpty then [(emptyVectorMeta CAP : VectorMetaData α)] else root.chain)
          childTotal 0).1 := rfl

theorem cdcl_meta (CAP : Nat) [Inhabited α] (root : ListVectorMeta α)
    (source : VectorData (Nat × Nat)) (child : VectorData α) (childTotal soff n : Nat) :
    (columnDataCopyList CAP root source child childTotal soff n).meta
      = templatedColumnDataCopy CAP
          (fun e => (e.1 + (listChildLoop CAP child childTotal
              (if root.chain.isEmpty then [(emptyVectorMeta CAP : VectorMetaData α)] else root.chain)
              childTotal 0).2, e.2))
          root.meta source soff n := rfl

theorem writeListChunk_spec (CAP : Nat) [Inhabited α] (b : ListDataChunk α)
    (lens : List Nat) (chunk : ListChunkMetaData α) (L : List (List (Option α)))
    (hcap : 0 < CAP) (hT : TiledEntries b lens) (hwf : ListChunkWF CAP chunk L)
    (hroom : L.length + b.size ≤ CAP) :
    ListChunkWF CAP (writeListChunk CAP b 0 b.size chunk) (L ++ batchLists b lens) := by
  obtain ⟨hsz, hct, hval, hent⟩ := hT
  obtain ⟨hcnt, hle, hslot, hmc, hchain, hentries⟩ := hwf
  set chain0 := if chunk.root.chain.isEmpty then
      [(emptyVectorMeta CAP : VectorMetaData α)] else chunk.root.chain with hch0
  have hc0 : ChainWF CAP chain0 L.flatten := by
    by_cases hemp : chunk.root.chain.isEmpty = true
    · have hnil : chunk.root.chain = [] := by
        cases h : chunk.root.chain with
        | nil => rfl
        | cons a l => rw [h] at hemp; simp [List.isEmpty] at hemp
      have hLf : L.flatten = [] := by
        have h1 := hchain.1
        rw [hnil] at h1
        exact h1.symm
      rw [hch0, if_pos hemp, hLf]
      refine ⟨by simp [emptyVectorMeta], ?_, ?_⟩
      · intro s hs
        rcases List.mem_singleton.1 hs with rfl
        exact ⟨slotWF_empty CAP,
          by rw [show (emptyVectorMeta CAP : VectorMetaData α).count = 0 from rfl]; omega⟩
      · intro k hk
        simp at hk
    · rw [hch0, if_neg hemp]
      exact hchain
  have hwalk := listChildLoopAux_spec CAP b.child b.childTotal hcap
    (b.childTotal + chain0.length) chain0 L.flatten b.childTotal 0
    (Nat.le_refl _) (Nat.le_refl _) hc0
  have hcast : listChildLoop CAP b.child b.childTotal chain0 b.childTotal 0
      = listChildLoopAux CAP b.child b.childTotal (b.childTotal + chain0.length)
          chain0 b.childTotal 0 := rfl
  have hwalk1 : ChainWF CAP (listChildLoop CAP b.child b.childTotal chain0 b.childTotal 0).1
      (L.flatten ++ cellRange b.child 0 b.childTotal) := by
    have h1 := hwalk.1
    rw [Nat.sub_self] at h1
    rw [hcast]
    exact h1
  have hwalk2 : (listChildLoop CAP b.child b.childTotal chain0 b.childTotal 0).2
      = if b.childTotal = 0 then 0 else L.flatten.length := by
    rw [hcast, hwalk.2.1, Nat.zero_add]
  have hmeta : (writeListChunk CAP b 0 b.size chunk).root.meta
      = templatedColumnDataCopy CAP
          (fun e => (e.1 + (listChildLoop CAP b.child b.childTotal chain0 b.childTotal 0).2, e.2))
          chunk.root.meta b.entries 0 b.size := by
    rw [wlc_root, cdcl_meta, ← hch0]
  have hmlen : chunk.root.meta.data.length = L.length := by rw [hslot.1, hmc]
  have hmspec := templatedColumnDataCopy_spec CAP
    (fun e => (e.1 + (listChildLoop CAP b.child b.childTotal chain0 b.childTotal 0).2, e.2))
    chunk.root.meta b.entries 0 b.size hslot (by rw [hmc]; exact hroom)
  have hchain' : ChainWF CAP (writeListChunk CAP b 0 b.size chunk).root.chain
      ((L ++ batchLists b lens).flatten) := by
    rw [wlc_root, cdcl_chain, ← hch0, List.flatten_append, batchLists_flatten, ← hct]
    exact hwalk1
  refine ⟨?_, ?_, ?_, ?_, hchain', ?_⟩
  · rw [wlc_count, hcnt, List.length_append, length_batchLists, ← hsz]
  · rw [List.length_append, length_batchLists]
    omega
  · rw [hmeta]
    exact hmspec.2.1
  · rw [hmeta, tcdc_count, hmc, List.length_append, length_batchLists, ← hsz]
  · intro r hr
    rw [List.length_append, length_batchLists, ← hsz] at hr
    by_cases hrL : r < L.length
    · obtain ⟨off, heq, hoffc⟩ := hentries r hrL
      refine ⟨off, ?_, ?_⟩
      · rw [hmeta, tcdc_data, List.getD_append _ _ _ _ (by rw [hmlen]; exact hrL),
          List.getD_append _ _ _ _ hrL]
        exact heq
      · intro hpos
        rw [List.getD_append _ _ _ _ hrL] at hpos
        rw [List.take_append_eq_append_take, show r - L.length = 0 from by omega,
          List.take_zero, List.append_nil]
        exact hoffc hpos
    · have hrge : L.length ≤ r := by omega
      have hib : r - L.length < b.size := by omega
      have hil : r - L.length < lens.length := by omega
      have hlen2 : ((L ++ batchLists b lens).getD r []).length = lens.getD (r - L.length) 0 := by
        rw [List.getD_append_right _ _ _ _ hrge, getD_batchLists b lens (r - L.length) hil,
          List.length_map, List.length_range]
      refine ⟨partialSum lens (r - L.length)
        + (listChildLoop CAP b.child b.childTotal chain0 b.childTotal 0).2, ?_, ?_⟩
      · rw [hlen2, hmeta, tcdc_data,
          List.getD_append_right _ _ _ _ (by rw [hmlen]; exact hrge), hmlen,
          getD_range_map, if_pos hib, Nat.zero_add, (hent (r - L.length) hib).1,
          (hent (r - L.length) hib).2, hval]
        rfl
      · intro hpos
        rw [hlen2] at hpos
        have hct0 : ¬b.childTotal = 0 := by
          have h1 := getD_le_sum lens (r - L.length)
          rw [hct]
          omega
        rw [hwalk2, if_neg hct0, List.take_append_eq_append_take,
          List.take_of_length_le (by omega : L.length ≤ r), List.flatten_append,
          List.length_append, batchLists_take_flatten_length]
        omega

theorem listChunkWF_slices (CAP : Nat) (chunk : ListChunkMetaData α)
    (L : List (List (Option α))) (hwf : ListChunkWF CAP chunk L) :
    chunkEntrySlices chunk = L := by
  obtain ⟨hcnt, hle, hslot, hmc, hchain, hentries⟩ := hwf
  unfold chunkEntrySlices
  rw [hcnt]
  have hper : ∀ r ∈ List.range L.length, chunkEntrySlice chunk r = L.getD r [] := by
    intro r hrm
    have hr : r < L.length := List.mem_range.1 hrm
    obtain ⟨off, heq, hoffc⟩ := hentries r hr
    unfold chunkEntrySlice
    rw [heq]
    by_cases hlen : (L.getD r []).length = 0
    · rw [List.length_eq_zero.1 hlen]
      rfl
    · rw [hoffc (by omega)]
      rw [show chainVals chunk.root = L.flatten from hchain.1]
      exact flatten_drop_take L r hr
  rw [List.map_congr_left hper, range_map_getD_eq_take [] L.length L (Nat.le_refl _),
    List.take_length]

theorem appendLoopLAux_zero (CAP : Nat) [Inhabited α] (b : ListDataChunk α)
    (fuel : Nat) (seg : ListSegment α) :
    appendLoopLAux CAP b fuel seg 0 = seg := by
  cases fuel with
  | zero => rfl
  | succ fuel =>
    unfold appendLoopLAux
    rw [if_pos rfl]

theorem appendStepL_write (CAP : Nat) [Inhabited α] (b : ListDataChunk α)
    (seg : ListSegment α) (n : Nat) (hn : 0 < n)
    (hroom : (seg.chunk_data.getLastD default).count + n ≤ CAP) :
    appendStepL CAP b seg n
      = ({ seg with chunk_data :=
            updateLast (writeListChunk CAP b (b.size - n) n) seg.chunk_data }, 0) := by
  unfold appendStepL
  dsimp only
  rw [Nat.min_eq_left (by omega), if_pos hn, Nat.sub_self,
    if_neg (by omega : ¬0 < 0)]

theorem appendStepL_full (CAP : Nat) [Inhabited α] (b : ListDataChunk α)
    (seg : ListSegment α) (n : Nat) (hn : 0 < n)
    (hfull : (seg.chunk_data.getLastD default).count = CAP) :
    appendStepL CAP b seg n = (allocateNewListChunk CAP seg, n) := by
  unfold appendStepL
  dsimp only
  rw [hfull, Nat.sub_self, Nat.min_zero, if_neg (by omega : ¬0 < 0), Nat.sub_zero,
    if_pos hn]

theorem appendLoopL_write (CAP : Nat) [Inhabited α] (b : ListDataChunk α)
    (seg : ListSegment α) (hsz : 0 < b.size)
    (hroom : (seg.chunk_data.getLastD default).count + b.size ≤ CAP) :
    appendLoopL CAP b seg b.size
      = { seg with chunk_data :=
            updateLast (writeListChunk CAP b 0 b.size) seg.chunk_data } := by
  obtain ⟨k, hk⟩ : ∃ k, b.size = k + 1 := ⟨b.size - 1, by omega⟩
  unfold appendLoopL
  rw [hk]
  unfold appendLoopLAux
  rw [if_neg (Nat.succ_ne_zero k)]
  dsimp only
  rw [show appendStepL CAP b seg (k + 1)
      = ({ seg with chunk_data :=
            updateLast (writeListChunk CAP b (b.size - (k + 1)) (k + 1)) seg.chunk_data }, 0)
    from appendStepL_write CAP b seg (k + 1) (by omega) (by omega)]
  rw [if_pos (by omega : (0 : Nat) < k + 1)]
  rw [appendLoopLAux_zero]
  rw [show b.size - (k + 1) = 0 from by omega]

theorem appendLoopL_fullThenWrite (CAP : Nat) [Inhabited α] (b : ListDataChunk α)
    (seg : ListSegment α) (hsz : 0 < b.size) (hszc : b.size ≤ CAP)
    (hfull : (seg.chunk_data.getLastD default).count = CAP) :
    appendLoopL CAP b seg b.size
      = { seg with chunk_data := seg.chunk_data
            ++ [writeListChunk CAP b 0 b.size ⟨0, ⟨emptyVectorMeta CAP, []⟩⟩] } := by
  obtain ⟨k, hk⟩ : ∃ k, b.size = k + 1 := ⟨b.size - 1, by omega⟩
  unfold appendLoopL
  rw [hk]
  unfold appendLoopLAux
  rw [if_neg (Nat.succ_ne_zero k)]
  dsimp only
  rw [show appendStepL CAP b seg (k + 1) = (allocateNewListChunk CAP seg, k + 1)
    from appendStepL_full CAP b seg (k + 1) (by omega) hfull]
  rw [if_neg (by omega : ¬k + 1 < k + 1)]
  have hlast : ((allocateNewListChunk CAP seg).chunk_data.getLastD default).count = 0 := by
    unfold allocateNewListChunk
    rw [List.getLastD_concat]
  rw [show appendStepL CAP b (allocateNewListChunk CAP seg) (k + 1)
      = ({ chunk_data :=
            updateLast (writeListChunk CAP b (b.size - (k + 1)) (k + 1))
              (allocateNewListChunk CAP seg).chunk_data,
           count := seg.count }, 0)
    from appendStepL_write CAP b (allocateNewListChunk CAP seg) (k + 1) (by omega)
      (by rw [hlast]; omega)]
  rw [if_pos (by omega : (0 : Nat) < k + 1)]
  rw [appendLoopLAux_zero]
  rw [show b.size - (k + 1) = 0 from by omega]
  show ({ chunk_data := updateLast (writeListChunk CAP b 0 (k + 1))
            (seg.chunk_data ++ [⟨0, ⟨emptyVectorMeta CAP, []⟩⟩]),
          count := seg.count } : ListSegment α) = _
  rw [updateLast_concat]

theorem freshListChunk_wf (CAP : Nat) :
    ListChunkWF CAP (⟨0, ⟨emptyVectorMeta CAP, []⟩⟩ : ListChunkMetaData α) [] :=
  ⟨rfl, Nat.zero_le CAP, slotWF_empty CAP, rfl, chainWF_nil CAP,
    fun r hr => absurd hr (by simp)⟩

theorem appendL_unfold_empty (CAP : Nat) [Inhabited α] (c : ListCollection α)
    (b : ListDataChunk α) (hs : c.segments = []) :
    c.append CAP b
      = { count := c.count + b.size,
          segments := [⟨(appendLoopL CAP b ⟨[⟨0, ⟨emptyVectorMeta CAP, []⟩⟩], 0⟩ b.size).chunk_data,
            (appendLoopL CAP b ⟨[⟨0, ⟨emptyVectorMeta CAP, []⟩⟩], 0⟩ b.size).count
              + b.size⟩] } := by
  unfold ListCollection.append
  rw [hs]
  rfl

theorem appendL_unfold (CAP : Nat) [Inhabited α] (c : ListCollection α)
    (b : ListDataChunk α) (seg : ListSegment α) (hs : c.segments = [seg])
    (hne : seg.chunk_data ≠ []) :
    c.append CAP b
      = { count := c.count + b.size,
          segments := [⟨(appendLoopL CAP b seg b.size).chunk_data,
                        (appendLoopL CAP b seg b.size).count + b.size⟩] } := by
  have hie : seg.chunk_data.isEmpty = false := by
    cases h : seg.chunk_data with
    | nil => exact absurd h hne
    | cons a l => rfl
  unfold ListCollection.append
  rw [hs]
  dsimp only
  simp only [List.isEmpty_cons, Bool.false_eq_true, if_false]
  rw [getLastD_singleton, hie]
  simp only [Bool.false_eq_true, if_false]
  rfl

theorem sum_map_snd_length (ps : List (ListChunkMetaData α × List (List (Option α)))) :
    (ps.map fun p => p.2.length).sum = ((ps.map fun p => p.2).flatten).length := by
  rw [List.length_flatten, List.map_map]
  rfl

theorem appendL_spec (CAP : Nat) [Inhabited α] (c : ListCollection α)
    (pairs : List (ListChunkMetaData α × List (List (Option α))))
    (b : ListDataChunk α) (lens : List Nat)
    (hcap : 0 < CAP) (hwf : ListCollWF CAP c pairs) (hT : TiledEntries b lens)
    (hsz : 0 < b.size) (hns : c.count % CAP + b.size ≤ CAP) :
    ∃ pairs2, ListCollWF CAP (c.append CAP b) pairs2 ∧
      (pairs2.map fun p => p.2).flatten
        = (pairs.map fun p => p.2).flatten ++ batchLists b lens := by
  obtain ⟨hseg, hpwf, hfull, hcount⟩ := hwf
  rcases hseg with ⟨hs0, hp0⟩ | ⟨seg, hs, hne, hcd⟩
  · -- empty collection: a fresh chunk receives the whole batch
    have hc0 : c.count = 0 := by rw [hcount, hp0]; rfl
    have hcapb : b.size ≤ CAP := by
      rw [hc0, Nat.zero_mod] at hns
      omega
    have hloop := appendLoopL_write CAP b ⟨[⟨0, ⟨emptyVectorMeta CAP, []⟩⟩], 0⟩ hsz
      (by rw [getLastD_singleton]; show 0 + b.size ≤ CAP; omega)
    refine ⟨[(writeListChunk CAP b 0 b.size ⟨0, ⟨emptyVectorMeta CAP, []⟩⟩,
        batchLists b lens)], ⟨?_, ?_, ?_, ?_⟩, ?_⟩
    · refine Or.inr ⟨⟨[writeListChunk CAP b 0 b.size ⟨0, ⟨emptyVectorMeta CAP, []⟩⟩],
          0 + b.size⟩, ?_, by simp, ?_⟩
      · rw [appendL_unfold_empty CAP c b hs0, hloop]
        rfl
      · rfl
    · intro p hp
      rcases List.mem_singleton.1 hp with rfl
      have := writeListChunk_spec CAP b lens ⟨0, ⟨emptyVectorMeta CAP, []⟩⟩ []
        hcap hT (freshListChunk_wf CAP) (by simpa using hcapb)
      rwa [List.nil_append] at this
    · intro k hk
      simp at hk
    · rw [appendL_unfold_empty CAP c b hs0]
      show c.count + b.size = _
      rw [hc0]
      simp [length_batchLists, hT.1]
    · rw [hp0]
      simp
  · -- nonempty collection: write into the last chunk or a fresh one
    have hcdne : seg.chunk_data ≠ [] := by
      rw [hcd]
      simpa using hne
    have hlmem := mem_getLastD pairs hne default
    have hlwf := hpwf (pairs.getLastD default) hlmem
    have hlastc : seg.chunk_data.getLastD default = (pairs.getLastD default).1 := by
      rw [hcd]
      exact getLastD_map_general Prod.fst pairs default
    have hcs_last : (pairs.map fun p => p.2.length).getLastD 0
        = (pairs.getLastD default).2.length :=
      getLastD_map_general (fun p => p.2.length) pairs default
    have hcs_full : ∀ k, k + 1 < (pairs.map fun p => p.2.length).length →
        (pairs.map fun p => p.2.length).getD k 0 = CAP := by
      intro k hk
      rw [List.length_map] at hk
      have h1 : (pairs.map fun p => p.2.length).getD k 0
          = (pairs.getD k default).2.length :=
        getD_map_general (fun p => p.2.length) pairs k default
      rw [h1]
      exact hfull k hk
    have htot : c.count = CAP * (pairs.length - 1) + (pairs.getLastD default).2.length := by
      rw [hcount, sum_of_full CAP (pairs.map fun p => p.2.length)
        (by simpa using hne) hcs_full, hcs_last, List.length_map]
    have hlle : (pairs.getLastD default).2.length ≤ CAP := hlwf.2.1
    by_cases hfl : (pairs.getLastD default).2.length = CAP
    · -- last chunk exactly full: allocate a fresh chunk for the batch
      have hmod : c.count % CAP = 0 := by
        rw [htot, hfl, Nat.mul_add_mod, Nat.mod_self]
      have hcapb : b.size ≤ CAP := by
        rw [hmod] at hns
        omega
      have hloop := appendLoopL_fullThenWrite CAP b seg hsz hcapb
        (by rw [hlastc, hlwf.1]; exact hfl)
      refine ⟨pairs ++ [(writeListChunk CAP b 0 b.size ⟨0, ⟨emptyVectorMeta CAP, []⟩⟩,
          batchLists b lens)], ⟨?_, ?_, ?_, ?_⟩, ?_⟩
      · refine Or.inr ⟨⟨seg.chunk_data
            ++ [writeListChunk CAP b 0 b.size ⟨0, ⟨emptyVectorMeta CAP, []⟩⟩],
            seg.count + b.size⟩, ?_, by simp, ?_⟩
        · rw [appendL_unfold CAP c b seg hs hcdne, hloop]
        · rw [List.map_append, hcd]
          rfl
      · intro p hp
        rcases List.mem_append.1 hp with hp | hp
        · exact hpwf p hp
        · rcases List.mem_singleton.1 hp with rfl
          have := writeListChunk_spec CAP b lens ⟨0, ⟨emptyVectorMeta CAP, []⟩⟩ []
            hcap hT (freshListChunk_wf CAP) (by simpa using hcapb)
          rwa [List.nil_append] at this
      · intro k hk
        rw [List.length_append, List.length_singleton] at hk
        have hklt : k < pairs.length := by omega
        rw [List.getD_append _ _ _ _ hklt]
        rcases Nat.lt_or_ge (k + 1) pairs.length with hk2 | hk2
        · exact hfull k hk2
        · have hkeq : k = pairs.length - 1 := by omega
          rw [hkeq, getD_length_sub_one pairs hne default]
          exact hfl
      · rw [appendL_unfold CAP c b seg hs hcdne]
        show c.count + b.size = _
        rw [List.map_append, List.sum_append, hcount]
        simp [length_batchLists, hT.1]
      · rw [List.map_append, List.flatten_append]
        simp
    · -- last chunk has room for the whole batch
      have hmod : c.count % CAP = (pairs.getLastD default).2.length := by
        rw [htot, Nat.mul_add_mod, Nat.mod_eq_of_lt (by omega)]
      have hroomb : (pairs.getLastD default).2.length + b.size ≤ CAP := by
        rw [hmod] at hns
        omega
      have hloop := appendLoopL_write CAP b seg hsz
        (by rw [hlastc, hlwf.1]; omega)
      refine ⟨updateLast (fun p => (writeListChunk CAP b 0 b.size p.1,
          p.2 ++ batchLists b lens)) pairs, ⟨?_, ?_, ?_, ?_⟩, ?_⟩
      · refine Or.inr ⟨⟨updateLast (writeListChunk CAP b 0 b.size) seg.chunk_data,
            seg.count + b.size⟩, ?_, updateLast_ne_nil _ pairs hne, ?_⟩
        · rw [appendL_unfold CAP c b seg hs hcdne, hloop]
        · rw [hcd]
          show updateLast (writeListChunk CAP b 0 b.size) (List.map Prod.fst pairs)
            = List.map Prod.fst (updateLast (fun p =>
                (writeListChunk CAP b 0 b.size p.1, p.2 ++ batchLists b lens)) pairs)
          exact (map_updateLast (fun p =>
            (writeListChunk CAP b 0 b.size p.1, p.2 ++ batchLists b lens))
            Prod.fst (writeListChunk CAP b 0 b.size) (fun p => rfl) pairs).symm
      · refine mem_updateLast _ pairs default hpwf ?_
        exact writeListChunk_spec CAP b lens (pairs.getLastD default).1
          (pairs.getLastD default).2 hcap hT hlwf hroomb
      · intro k hk
        rw [length_updateLast] at hk
        rw [getD_updateLast_lt _ default pairs k hk]
        exact hfull k hk
      · rw [appendL_unfold CAP c b seg hs hcdne]
        show c.count + b.size = _
        rw [sum_map_snd_length,
          flatten_map_updateLast _ _ (batchLists b lens) pairs default hne rfl,
          List.length_append, ← sum_map_snd_length, ← hcount, length_batchLists, hT.1]
      · exact flatten_map_updateLast _ _ (batchLists b lens) pairs default hne rfl

theorem emptyListCollection_wf (CAP : Nat) :
    ListCollWF CAP (emptyListCollection : ListCollection α) [] :=
  ⟨Or.inl ⟨rfl, rfl⟩, by simp, by simp, rfl⟩

theorem appendAllL_spec (CAP : Nat) [Inhabited α] (hcap : 0 < CAP) :
    ∀ (bs : List (ListDataChunk α)) (lenss : List (List Nat))
      (c : ListCollection α) (pairs : List (ListChunkMetaData α × List (List (Option α)))),
      ListCollWF CAP c pairs →
      List.Forall₂ (fun b lens => TiledEntries b lens ∧ 0 < b.size) bs lenss →
      noStraddleFrom CAP c.count (bs.map fun b => b.size) = true →
      ∃ pairs2, ListCollWF CAP (appendAllL CAP c bs) pairs2 ∧
        (pairs2.map fun p => p.2).flatten
          = (pairs.map fun p => p.2).flatten
            ++ (List.zipWith batchLists bs lenss).flatten
  | [], lenss, c, pairs, hwf, hF, _ => by
    cases hF
    exact ⟨pairs, hwf, by simp⟩
  | b :: bs, _, c, pairs, hwf, List.Forall₂.cons ⟨hT, hbsz⟩ hF2, hns => by
    rw [List.map_cons,
      show noStraddleFrom CAP c.count (b.size :: bs.map fun b => b.size)
        = (decide (c.count % CAP + b.size ≤ CAP)
            && noStraddleFrom CAP (c.count + b.size) (bs.map fun b => b.size)) from rfl,
      Bool.and_eq_true, decide_eq_true_eq] at hns
    obtain ⟨hns1, hns2⟩ := hns
    obtain ⟨pairs1, hwf1, hflat1⟩ := appendL_spec CAP c pairs b _ hcap hwf hT hbsz hns1
    obtain ⟨pairs2, hwf2, hflat2⟩ := appendAllL_spec CAP hcap bs _ (c.append CAP b) pairs1
      hwf1 hF2 (by
        show noStraddleFrom CAP (c.append CAP b).count (bs.map fun b => b.size) = true
        exact hns2)
    refine ⟨pairs2, hwf2, ?_⟩
    rw [hflat2, hflat1, List.zipWith_cons_cons, List.flatten_cons, List.append_assoc]

instance decTiledEntries (b : ListDataChunk α) (lens : List Nat) :
    Decidable (TiledEntries b lens) := by
  unfold TiledEntries
  exact inferInstance

/-- C5, corrected: list offset integrity holds per chunk only when no append
call straddles a chunk boundary. Under tiled input batches (entries tile the
batch child array), non-empty batches, and the no-straddle side condition,
appending all batches yields a collection whose stored lists are exactly the
batches' lists in order, and in every chunk the stored entries' runs tile the
chunk's flattened child chain storage in row order with no overlap and no
gap; each entry's start offset is the cumulative child-value count already
resident in the chain before its append (`current_list_size`), as computed by
the chain walk. Without the no-straddle condition the per-chunk tiling fails:
a straddling append re-appends the batch's entire child array into every
chunk it touches, leaving unreferenced runs (see the counterexample). -/
theorem claim_C5_amended (CAP : Nat) [Inhabited α] (hcap : 0 < CAP)
    (bs : List (ListDataChunk α)) (lenss : List (List Nat))
    (hF : List.Forall₂ (fun b lens => TiledEntries b lens ∧ 0 < b.size) bs lenss)
    (hns : noStraddleFrom CAP 0 (bs.map fun b => b.size) = true) :
    storedLists (appendAllL CAP emptyListCollection bs)
      = (List.zipWith batchLists bs lenss).flatten ∧
    ∀ chunk ∈ allListChunks (appendAllL CAP emptyListCollection bs),
      (chunkEntrySlices chunk).flatten = chainVals chunk.root := by
  obtain ⟨pairs, hwf, hflat⟩ := appendAllL_spec CAP hcap bs lenss emptyListCollection []
    (emptyListCollection_wf CAP) hF hns
  have hchunks : allListChunks (appendAllL CAP emptyListCollection bs)
      = pairs.map Prod.fst := by
    rcases hwf.1 with ⟨hs0, hp0⟩ | ⟨seg, hs, hne, hcd⟩
    · rw [hp0]
      unfold allListChunks
      rw [hs0]
      rfl
    · unfold allListChunks
      rw [hs, ← hcd]
      simp
  constructor
  · unfold storedLists
    rw [hchunks, List.map_map,
      show pairs.map (chunkEntrySlices ∘ Prod.fst) = pairs.map fun p => p.2 from
        List.map_congr_left fun p hp => listChunkWF_slices CAP p.1 p.2 (hwf.2.1 p hp),
      hflat]
    simp
  · intro chunk hck
    rw [hchunks] at hck
    obtain ⟨p, hp, rfl⟩ := List.mem_map.1 hck
    have hpw := hwf.2.1 p hp
    rw [listChunkWF_slices CAP p.1 p.2 hpw]
    show p.2.flatten = chainVals p.1.root
    unfold chainVals
    exact hpw.2.2.2.2.1.1.symm

/-- A straddling append violates the claimed no-gap property: with capacity
2, appending a batch of one list and then a batch of two lists splits the
second append across two chunks; each of the two chunks receives a copy of
the second batch's entire child array but references only part of it, so the
entry runs of a chunk no longer tile its flattened child storage. -/
theorem claim_C5_counterexample :
    ¬ ∀ chunk ∈ allListChunks (appendAllL 2 emptyListCollection
        [(⟨1, ⟨id, fun _ => (0, 1), none⟩, 1, ⟨id, fun _ => 10, none⟩⟩ : ListDataChunk Nat),
         (⟨2, ⟨id, fun r => (r, 1), none⟩, 2, ⟨id, fun i => 20 + 10 * i, none⟩⟩
           : ListDataChunk Nat)]),
      (chunkEntrySlices chunk).flatten = chainVals chunk.root := by
  decide

theorem claim_C5_witness :
    storedLists (appendAllL 2 emptyListCollection
        [(⟨1, ⟨id, fun _ => (0, 1), none⟩, 1, ⟨id, fun _ => 10, none⟩⟩ : ListDataChunk Nat),
         (⟨1, ⟨id, fun _ => (0, 2), none⟩, 2, ⟨id, fun i => 20 + 10 * i, none⟩⟩
           : ListDataChunk Nat)])
      = (List.zipWith batchLists
          [(⟨1, ⟨id, fun _ => (0, 1), none⟩, 1, ⟨id, fun _ => 10, none⟩⟩ : ListDataChunk Nat),
           (⟨1, ⟨id, fun _ => (0, 2), none⟩, 2, ⟨id, fun i => 20 + 10 * i, none⟩⟩
             : ListDataChunk Nat)] [[1], [2]]).flatten ∧
    ∀ chunk ∈ allListChunks (appendAllL 2 emptyListCollection
        [(⟨1, ⟨id, fun _ => (0, 1), none⟩, 1, ⟨id, fun _ => 10, none⟩⟩ : ListDataChunk Nat),
         (⟨1, ⟨id, fun _ => (0, 2), none⟩, 2, ⟨id, fun i => 20 + 10 * i, none⟩⟩
           : ListDataChunk Nat)]),
      (chunkEntrySlices chunk).flatten = chainVals chunk.root :=
  claim_C5_amended 2 (by decide) _ [[1], [2]]
    (List.Forall₂.cons (by decide) (List.Forall₂.cons (by decide) List.Forall₂.nil))
    (by decide)

end DuckDB
